import Mathlib

/-!
Verification development for the Binance data collector's shared-memory
publish/consume subsystem (binance_collector.c, binance_common.h and the
shared-memory reader).  Machine integers are modelled as `Nat`/`Int`;
IEEE-754 doubles are modelled by their 64-bit pattern (the program only
stores and copies them, it never computes with them), and the shared
region is modelled at byte granularity (bytes are `Nat` values below 256).
-/

namespace Binance

/-- Constant MAX_SYMBOLS from binance_common.h. -/
def MAX_SYMBOLS : Nat := 10

/-- Constant MAX_SYMBOL_LENGTH from binance_common.h. -/
def MAX_SYMBOL_LENGTH : Nat := 16

/-- Constant MAX_RECORDS_PER_SYMBOL from binance_common.h. -/
def MAX_RECORDS_PER_SYMBOL : Nat := 100

/-- Constant SHM_SIZE from binance_common.h (64 MiB). -/
def SHM_SIZE : Nat := 64 * 1024 * 1024

/-- Enum value DATA_TYPE_TRADE from binance_common.h. -/
def DATA_TYPE_TRADE : Nat := 1

/-- Enum value DATA_TYPE_KLINE from binance_common.h. -/
def DATA_TYPE_KLINE : Nat := 2

/-- Size in bytes of the packed message_header_t (4 + 4 + 8 + 16). -/
def sizeof_message_header : Nat := 32

/-- Size in bytes of the packed trade_record_t (8*5 + 1). -/
def sizeof_trade_record : Nat := 41

/-- Size in bytes of the packed kline_record_t (8*8 + 1). -/
def sizeof_kline_record : Nat := 65

/-- Size in bytes of size_t on the target platform. -/
def sizeof_size_t : Nat := 8

/-- A 64-bit IEEE-754 double, modelled by its bit pattern; the program only
stores and memcpy-copies doubles, so bit-pattern identity is exact. -/
structure F64 where
  bits : Nat
deriving DecidableEq

/-- Packed trade_record_t from binance_common.h. -/
structure trade_record_t where
  event_time : Int
  trade_time : Int
  price : F64
  quantity : F64
  trade_id : Int
  is_buyer_maker : Nat
deriving DecidableEq

/-- Packed kline_record_t from binance_common.h. -/
structure kline_record_t where
  open_time : Int
  close_time : Int
  open_price : F64
  close_price : F64
  high_price : F64
  low_price : F64
  volume : F64
  num_trades : Int
  is_final : Nat
deriving DecidableEq

/-- Packed message_header_t from binance_common.h: a 4-byte enum tag, a
4-byte length, an 8-byte timestamp and a 16-byte symbol field. -/
structure message_header_t where
  type : Nat
  length : Nat
  timestamp : Int
  symbol : List Nat
deriving DecidableEq

/-- Little-endian encoding of a value into a fixed number of bytes. -/
def encodeLE : Nat → Nat → List Nat
  | 0, _ => []
  | k + 1, v => (v % 256) :: encodeLE k (v / 256)

/-- Little-endian decoding of a byte list into a natural number. -/
def decodeLE : List Nat → Nat
  | [] => 0
  | b :: bs => b % 256 + 256 * decodeLE bs

/-- Two's-complement 64-bit image of a signed value, as a natural number. -/
def toTwos64 (v : Int) : Nat := (v % (2 ^ 64 : Nat)).toNat

/-- Encoding of an int64_t field: 8 little-endian two's-complement bytes. -/
def encodeI64 (v : Int) : List Nat := encodeLE 8 (toTwos64 v)

/-- Decoding of an int64_t field from 8 little-endian bytes. -/
def decodeI64 (bs : List Nat) : Int :=
  let n := decodeLE bs
  if n < 2 ^ 63 then (n : Int) else (n : Int) - 2 ^ 64

/-- Range predicate for values representable in a signed 64-bit field. -/
def wfI64 (v : Int) : Prop := -(2 ^ 63) ≤ v ∧ v < 2 ^ 63

instance (v : Int) : Decidable (wfI64 v) := by unfold wfI64; infer_instance

theorem encodeLE_length (k v : Nat) : (encodeLE k v).length = k := by
  induction k generalizing v with
  | zero => rfl
  | succ k ih => simp [encodeLE, ih]

theorem decode_encodeLE (k v : Nat) : decodeLE (encodeLE k v) = v % 256 ^ k := by
  induction k generalizing v with
  | zero => simp [encodeLE, decodeLE, Nat.mod_one]
  | succ k ih =>
    simp only [encodeLE, decodeLE, ih]
    have h : (256 : Nat) ^ (k + 1) = 256 * 256 ^ k := by ring
    rw [h, Nat.mod_mul, Nat.mod_mod_of_dvd v (dvd_refl 256)]

theorem decode_encodeLE_of_lt {k v : Nat} (h : v < 256 ^ k) :
    decodeLE (encodeLE k v) = v := by
  rw [decode_encodeLE, Nat.mod_eq_of_lt h]

theorem pow256_8 : (256 : Nat) ^ 8 = 2 ^ 64 := by norm_num

theorem pow256_4 : (256 : Nat) ^ 4 = 2 ^ 32 := by norm_num

theorem decode_encodeI64 {v : Int} (h : wfI64 v) : decodeI64 (encodeI64 v) = v := by
  rcases h with ⟨h1, h2⟩
  have hlt : toTwos64 v < 2 ^ 64 := by
    unfold toTwos64
    have : v % (2 ^ 64 : Nat) < (2 ^ 64 : Nat) := Int.emod_lt_of_pos v (by norm_num)
    omega
  unfold decodeI64 encodeI64
  rw [decode_encodeLE_of_lt (pow256_8 ▸ hlt)]
  unfold toTwos64
  have h64 : ((2 ^ 64 : Nat) : Int) = (2 : Int) ^ 64 := by norm_cast
  rcases le_or_lt 0 v with hv | hv
  · have hmod : v % ((2 ^ 64 : Nat) : Int) = v := by
      rw [h64]
      have hb : v < (2 : Int) ^ 64 := by omega
      exact Int.emod_eq_of_lt hv hb
    simp only [hmod]
    have hsm : v.toNat < 2 ^ 63 := by omega
    simp only [hsm, if_pos]
    omega
  · have hmod : v % ((2 ^ 64 : Nat) : Int) = v + 2 ^ 64 := by
      rw [h64]
      have e2 : v % (2 : Int) ^ 64 = (v + (2 : Int) ^ 64 * 1) % (2 : Int) ^ 64 :=
        (Int.add_mul_emod_self_left v ((2 : Int) ^ 64) 1).symm
      rw [e2]
      have e3 : v + (2 : Int) ^ 64 * 1 = v + (2 : Int) ^ 64 := by ring
      rw [e3]
      have hb1 : (0 : Int) ≤ v + 2 ^ 64 := by omega
      have hb2 : v + 2 ^ 64 < (2 : Int) ^ 64 := by omega
      exact Int.emod_eq_of_lt hb1 hb2
    simp only [hmod]
    have hge : ¬ ((v + 2 ^ 64).toNat < 2 ^ 63) := by omega
    simp only [hge, if_neg, if_false]
    omega

/-- Sub-list of `n` bytes starting at byte offset `off`, the model of a
pointer read at `base + off` of `n` bytes. -/
def slice (bs : List Nat) (off n : Nat) : List Nat := (bs.drop off).take n

/-- Serialization of a packed trade_record_t, field by field in declared
order, 41 bytes. -/
def encode_trade (r : trade_record_t) : List Nat :=
  encodeI64 r.event_time ++ encodeI64 r.trade_time ++ encodeLE 8 r.price.bits ++
    encodeLE 8 r.quantity.bits ++ encodeI64 r.trade_id ++ [r.is_buyer_maker]

/-- Deserialization of a packed trade_record_t from 41 bytes. -/
def decode_trade (bs : List Nat) : trade_record_t :=
  { event_time := decodeI64 (slice bs 0 8)
    trade_time := decodeI64 (slice bs 8 8)
    price := ⟨decodeLE (slice bs 16 8)⟩
    quantity := ⟨decodeLE (slice bs 24 8)⟩
    trade_id := decodeI64 (slice bs 32 8)
    is_buyer_maker := bs.getD 40 0 }

/-- Serialization of a packed kline_record_t, field by field in declared
order, 65 bytes. -/
def encode_kline (r : kline_record_t) : List Nat :=
  encodeI64 r.open_time ++ encodeI64 r.close_time ++ encodeLE 8 r.open_price.bits ++
    encodeLE 8 r.close_price.bits ++ encodeLE 8 r.high_price.bits ++
    encodeLE 8 r.low_price.bits ++ encodeLE 8 r.volume.bits ++
    encodeI64 r.num_trades ++ [r.is_final]

/-- Deserialization of a packed kline_record_t from 65 bytes. -/
def decode_kline (bs : List Nat) : kline_record_t :=
  { open_time := decodeI64 (slice bs 0 8)
    close_time := decodeI64 (slice bs 8 8)
    open_price := ⟨decodeLE (slice bs 16 8)⟩
    close_price := ⟨decodeLE (slice bs 24 8)⟩
    high_price := ⟨decodeLE (slice bs 32 8)⟩
    low_price := ⟨decodeLE (slice bs 40 8)⟩
    volume := ⟨decodeLE (slice bs 48 8)⟩
    num_trades := decodeI64 (slice bs 56 8)
    is_final := bs.getD 64 0 }

/-- Serialization of a packed message_header_t, 32 bytes when the symbol
field is its full 16 bytes. -/
def encode_header (h : message_header_t) : List Nat :=
  encodeLE 4 h.type ++ encodeLE 4 h.length ++ encodeI64 h.timestamp ++ h.symbol

/-- Deserialization of a packed message_header_t from 32 bytes. -/
def decode_header (bs : List Nat) : message_header_t :=
  { type := decodeLE (slice bs 0 4)
    length := decodeLE (slice bs 4 4)
    timestamp := decodeI64 (slice bs 8 8)
    symbol := slice bs 16 16 }

/-- Well-formedness of a trade record's field values as 64-bit/8-bit data. -/
def wf_trade (r : trade_record_t) : Prop :=
  wfI64 r.event_time ∧ wfI64 r.trade_time ∧ r.price.bits < 2 ^ 64 ∧
    r.quantity.bits < 2 ^ 64 ∧ wfI64 r.trade_id ∧ r.is_buyer_maker < 256

/-- Well-formedness of a kline record's field values as 64-bit/8-bit data. -/
def wf_kline (r : kline_record_t) : Prop :=
  wfI64 r.open_time ∧ wfI64 r.close_time ∧ r.open_price.bits < 2 ^ 64 ∧
    r.close_price.bits < 2 ^ 64 ∧ r.high_price.bits < 2 ^ 64 ∧
    r.low_price.bits < 2 ^ 64 ∧ r.volume.bits < 2 ^ 64 ∧
    wfI64 r.num_trades ∧ r.is_final < 256

/-- Well-formedness of a frame header's field values; the symbol field is
exactly its 16 declared bytes. -/
def wf_header (h : message_header_t) : Prop :=
  h.type < 2 ^ 32 ∧ h.length < 2 ^ 32 ∧ wfI64 h.timestamp ∧ h.symbol.length = 16

instance (r : trade_record_t) : Decidable (wf_trade r) := by unfold wf_trade; infer_instance

instance (r : kline_record_t) : Decidable (wf_kline r) := by unfold wf_kline; infer_instance

instance (h : message_header_t) : Decidable (wf_header h) := by unfold wf_header; infer_instance

theorem encodeI64_length (v : Int) : (encodeI64 v).length = 8 := by
  simp [encodeI64, encodeLE_length]

theorem encode_trade_length (r : trade_record_t) :
    (encode_trade r).length = sizeof_trade_record := by
  simp [encode_trade, encodeI64_length, encodeLE_length, sizeof_trade_record]

theorem encode_kline_length (r : kline_record_t) :
    (encode_kline r).length = sizeof_kline_record := by
  simp [encode_kline, encodeI64_length, encodeLE_length, sizeof_kline_record]

theorem encode_header_length {h : message_header_t} (hw : h.symbol.length = 16) :
    (encode_header h).length = sizeof_message_header := by
  simp [encode_header, encodeI64_length, encodeLE_length, hw, sizeof_message_header]

theorem slice_after {xs : List Nat} (ys : List Nat) {off : Nat}
    (hoff : xs.length = off) (n : Nat) :
    slice (xs ++ ys) off n = ys.take n := by
  subst hoff
  simp [slice, List.drop_left]

theorem slice_zero (bs : List Nat) (n : Nat) : slice bs 0 n = bs.take n := by
  simp [slice]

theorem take_exact {xs : List Nat} (ys : List Nat) {n : Nat} (h : xs.length = n) :
    (xs ++ ys).take n = xs := by
  subst h; exact List.take_left xs ys

theorem getD_append_at {α : Type} (xs : List α) (b : α) (ys : List α) (d : α)
    {off : Nat} (hoff : xs.length = off) :
    (xs ++ b :: ys).getD off d = b := by
  subst hoff
  induction xs with
  | nil => rfl
  | cons a as ih => simpa using ih

theorem decode_field_i64 {off : Nat} {pre rest : List Nat} {v : Int} (hv : wfI64 v)
    (hoff : pre.length = off) :
    decodeI64 (slice (pre ++ (encodeI64 v ++ rest)) off 8) = v := by
  rw [slice_after _ hoff, take_exact _ (encodeI64_length _)]
  exact decode_encodeI64 hv

theorem decode_field_le8 {off : Nat} {pre rest : List Nat} {v : Nat} (hv : v < 2 ^ 64)
    (hoff : pre.length = off) :
    decodeLE (slice (pre ++ (encodeLE 8 v ++ rest)) off 8) = v := by
  rw [slice_after _ hoff, take_exact _ (encodeLE_length 8 _)]
  exact decode_encodeLE_of_lt (pow256_8 ▸ hv)

theorem decode_field_le4 {off : Nat} {pre rest : List Nat} {v : Nat} (hv : v < 2 ^ 32)
    (hoff : pre.length = off) :
    decodeLE (slice (pre ++ (encodeLE 4 v ++ rest)) off 4) = v := by
  rw [slice_after _ hoff, take_exact _ (encodeLE_length 4 _)]
  exact decode_encodeLE_of_lt (pow256_4 ▸ hv)

theorem decode_encode_header {h : message_header_t} (hw : wf_header h) :
    decode_header (encode_header h) = h := by
  obtain ⟨h1, h2, h3, h4⟩ := hw
  have ft : decodeLE (slice (encode_header h) 0 4) = h.type := by
    rw [(by simp [encode_header] :
      encode_header h = ([] : List Nat) ++
        (encodeLE 4 h.type ++ (encodeLE 4 h.length ++ (encodeI64 h.timestamp ++ h.symbol))))]
    exact decode_field_le4 h1 rfl
  have fl : decodeLE (slice (encode_header h) 4 4) = h.length := by
    rw [(by simp [encode_header] :
      encode_header h = encodeLE 4 h.type ++
        (encodeLE 4 h.length ++ (encodeI64 h.timestamp ++ h.symbol)))]
    exact decode_field_le4 h2 (encodeLE_length 4 _)
  have fts : decodeI64 (slice (encode_header h) 8 8) = h.timestamp := by
    rw [(by simp [encode_header] :
      encode_header h = (encodeLE 4 h.type ++ encodeLE 4 h.length) ++
        (encodeI64 h.timestamp ++ h.symbol))]
    exact decode_field_i64 h3 (by simp [encodeLE_length])
  have fsym : slice (encode_header h) 16 16 = h.symbol := by
    rw [(by simp [encode_header] :
      encode_header h = (encodeLE 4 h.type ++ encodeLE 4 h.length ++ encodeI64 h.timestamp) ++
        h.symbol)]
    rw [slice_after _ (by simp [encodeLE_length, encodeI64_length]), ← h4, List.take_length]
  have : decode_header (encode_header h) = ⟨h.type, h.length, h.timestamp, h.symbol⟩ := by
    unfold decode_header
    rw [ft, fl, fts, fsym]
  rw [this]

theorem decode_encode_trade {r : trade_record_t} (hw : wf_trade r) :
    decode_trade (encode_trade r) = r := by
  obtain ⟨h1, h2, h3, h4, h5, h6⟩ := hw
  have f1 : decodeI64 (slice (encode_trade r) 0 8) = r.event_time := by
    rw [(by simp [encode_trade] :
      encode_trade r = ([] : List Nat) ++ (encodeI64 r.event_time ++
        (encodeI64 r.trade_time ++ (encodeLE 8 r.price.bits ++ (encodeLE 8 r.quantity.bits ++
          (encodeI64 r.trade_id ++ [r.is_buyer_maker]))))))]
    exact decode_field_i64 h1 rfl
  have f2 : decodeI64 (slice (encode_trade r) 8 8) = r.trade_time := by
    rw [(by simp [encode_trade] :
      encode_trade r = encodeI64 r.event_time ++ (encodeI64 r.trade_time ++
        (encodeLE 8 r.price.bits ++ (encodeLE 8 r.quantity.bits ++
          (encodeI64 r.trade_id ++ [r.is_buyer_maker])))))]
    exact decode_field_i64 h2 (encodeI64_length _)
  have f3 : decodeLE (slice (encode_trade r) 16 8) = r.price.bits := by
    rw [(by simp [encode_trade] :
      encode_trade r = (encodeI64 r.event_time ++ encodeI64 r.trade_time) ++
        (encodeLE 8 r.price.bits ++ (encodeLE 8 r.quantity.bits ++
          (encodeI64 r.trade_id ++ [r.is_buyer_maker]))))]
    exact decode_field_le8 h3 (by simp [encodeI64_length])
  have f4 : decodeLE (slice (encode_trade r) 24 8) = r.quantity.bits := by
    rw [(by simp [encode_trade] :
      encode_trade r = (encodeI64 r.event_time ++ encodeI64 r.trade_time ++
        encodeLE 8 r.price.bits) ++ (encodeLE 8 r.quantity.bits ++
          (encodeI64 r.trade_id ++ [r.is_buyer_maker])))]
    exact decode_field_le8 h4 (by simp [encodeI64_length, encodeLE_length])
  have f5 : decodeI64 (slice (encode_trade r) 32 8) = r.trade_id := by
    rw [(by simp [encode_trade] :
      encode_trade r = (encodeI64 r.event_time ++ encodeI64 r.trade_time ++
        encodeLE 8 r.price.bits ++ encodeLE 8 r.quantity.bits) ++
          (encodeI64 r.trade_id ++ [r.is_buyer_maker]))]
    exact decode_field_i64 h5 (by simp [encodeI64_length, encodeLE_length])
  have f6 : (encode_trade r).getD 40 0 = r.is_buyer_maker := by
    rw [(by simp [encode_trade] :
      encode_trade r = (encodeI64 r.event_time ++ encodeI64 r.trade_time ++
        encodeLE 8 r.price.bits ++ encodeLE 8 r.quantity.bits ++ encodeI64 r.trade_id) ++
          (r.is_buyer_maker :: []))]
    exact getD_append_at _ _ _ _ (by simp [encodeI64_length, encodeLE_length])
  have : decode_trade (encode_trade r) =
      ⟨r.event_time, r.trade_time, r.price, r.quantity, r.trade_id, r.is_buyer_maker⟩ := by
    unfold decode_trade
    rw [f1, f2, f3, f4, f5, f6]
  rw [this]

theorem decode_encode_kline {r : kline_record_t} (hw : wf_kline r) :
    decode_kline (encode_kline r) = r := by
  obtain ⟨h1, h2, h3, h4, h5, h6, h7, h8, h9⟩ := hw
  have f1 : decodeI64 (slice (encode_kline r) 0 8) = r.open_time := by
    rw [(by simp [encode_kline] :
      encode_kline r = ([] : List Nat) ++ (encodeI64 r.open_time ++
        (encodeI64 r.close_time ++ (encodeLE 8 r.open_price.bits ++
          (encodeLE 8 r.close_price.bits ++ (encodeLE 8 r.high_price.bits ++
            (encodeLE 8 r.low_price.bits ++ (encodeLE 8 r.volume.bits ++
              (encodeI64 r.num_trades ++ [r.is_final])))))))))]
    exact decode_field_i64 h1 rfl
  have f2 : decodeI64 (slice (encode_kline r) 8 8) = r.close_time := by
    rw [(by simp [encode_kline] :
      encode_kline r = encodeI64 r.open_time ++ (encodeI64 r.close_time ++
        (encodeLE 8 r.open_price.bits ++ (encodeLE 8 r.close_price.bits ++
          (encodeLE 8 r.high_price.bits ++ (encodeLE 8 r.low_price.bits ++
            (encodeLE 8 r.volume.bits ++ (encodeI64 r.num_trades ++ [r.is_final]))))))))]
    exact decode_field_i64 h2 (encodeI64_length _)
  have f3 : decodeLE (slice (encode_kline r) 16 8) = r.open_price.bits := by
    rw [(by simp [encode_kline] :
      encode_kline r = (encodeI64 r.open_time ++ encodeI64 r.close_time) ++
        (encodeLE 8 r.open_price.bits ++ (encodeLE 8 r.close_price.bits ++
          (encodeLE 8 r.high_price.bits ++ (encodeLE 8 r.low_price.bits ++
            (encodeLE 8 r.volume.bits ++ (encodeI64 r.num_trades ++ [r.is_final])))))))]
    exact decode_field_le8 h3 (by simp [encodeI64_length])
  have f4 : decodeLE (slice (encode_kline r) 24 8) = r.close_price.bits := by
    rw [(by simp [encode_kline] :
      encode_kline r = (encodeI64 r.open_time ++ encodeI64 r.close_time ++
        encodeLE 8 r.open_price.bits) ++ (encodeLE 8 r.close_price.bits ++
          (encodeLE 8 r.high_price.bits ++ (encodeLE 8 r.low_price.bits ++
            (encodeLE 8 r.volume.bits ++ (encodeI64 r.num_trades ++ [r.is_final]))))))]
    exact decode_field_le8 h4 (by simp [encodeI64_length, encodeLE_length])
  have f5 : decodeLE (slice (encode_kline r) 32 8) = r.high_price.bits := by
    rw [(by simp [encode_kline] :
      encode_kline r = (encodeI64 r.open_time ++ encodeI64 r.close_time ++
        encodeLE 8 r.open_price.bits ++ encodeLE 8 r.close_price.bits) ++
          (encodeLE 8 r.high_price.bits ++ (encodeLE 8 r.low_price.bits ++
            (encodeLE 8 r.volume.bits ++ (encodeI64 r.num_trades ++ [r.is_final])))))]
    exact decode_field_le8 h5 (by simp [encodeI64_length, encodeLE_length])
  have f6 : decodeLE (slice (encode_kline r) 40 8) = r.low_price.bits := by
    rw [(by simp [encode_kline] :
      encode_kline r = (encodeI64 r.open_time ++ encodeI64 r.close_time ++
        encodeLE 8 r.open_price.bits ++ encodeLE 8 r.close_price.bits ++
          encodeLE 8 r.high_price.bits) ++ (encodeLE 8 r.low_price.bits ++
            (encodeLE 8 r.volume.bits ++ (encodeI64 r.num_trades ++ [r.is_final]))))]
    exact decode_field_le8 h6 (by simp [encodeI64_length, encodeLE_length])
  have f7 : decodeLE (slice (encode_kline r) 48 8) = r.volume.bits := by
    rw [(by simp [encode_kline] :
      encode_kline r = (encodeI64 r.open_time ++ encodeI64 r.close_time ++
        encodeLE 8 r.open_price.bits ++ encodeLE 8 r.close_price.bits ++
          encodeLE 8 r.high_price.bits ++ encodeLE 8 r.low_price.bits) ++
            (encodeLE 8 r.volume.bits ++ (encodeI64 r.num_trades ++ [r.is_final])))]
    exact decode_field_le8 h7 (by simp [encodeI64_length, encodeLE_length])
  have f8 : decodeI64 (slice (encode_kline r) 56 8) = r.num_trades := by
    rw [(by simp [encode_kline] :
      encode_kline r = (encodeI64 r.open_time ++ encodeI64 r.close_time ++
        encodeLE 8 r.open_price.bits ++ encodeLE 8 r.close_price.bits ++
          encodeLE 8 r.high_price.bits ++ encodeLE 8 r.low_price.bits ++
            encodeLE 8 r.volume.bits) ++ (encodeI64 r.num_trades ++ [r.is_final]))]
    exact decode_field_i64 h8 (by simp [encodeI64_length, encodeLE_length])
  have f9 : (encode_kline r).getD 64 0 = r.is_final := by
    rw [(by simp [encode_kline] :
      encode_kline r = (encodeI64 r.open_time ++ encodeI64 r.close_time ++
        encodeLE 8 r.open_price.bits ++ encodeLE 8 r.close_price.bits ++
          encodeLE 8 r.high_price.bits ++ encodeLE 8 r.low_price.bits ++
            encodeLE 8 r.volume.bits ++ encodeI64 r.num_trades) ++ (r.is_final :: []))]
    exact getD_append_at _ _ _ _ (by simp [encodeI64_length, encodeLE_length])
  have : decode_kline (encode_kline r) =
      ⟨r.open_time, r.close_time, r.open_price, r.close_price, r.high_price,
        r.low_price, r.volume, r.num_trades, r.is_final⟩ := by
    unfold decode_kline
    rw [f1, f2, f3, f4, f5, f6, f7, f8, f9]
  rw [this]

/-- ASCII tolower on a byte, as used by strcasecmp. -/
def lowerByte (c : Nat) : Nat := if 65 ≤ c ∧ c ≤ 90 then c + 32 else c

/-- Case-insensitive C-string equality (strcasecmp(a, b) == 0), comparing
byte-wise up to a NUL terminator; running off either list counts as a
terminator mismatch. -/
def strCaseEq : List Nat → List Nat → Bool
  | [], [] => true
  | [], _ :: _ => false
  | _ :: _, [] => false
  | a :: as, b :: bs =>
    if lowerByte a = lowerByte b then (if a = 0 then true else strCaseEq as bs) else false

/-- Effect of strncpy(dst, src, 15) followed by dst[15] = 0 on the 16-byte
symbol field of a frame header. -/
def fixSymbol (s : List Nat) : List Nat :=
  s.take 15 ++ List.replicate (16 - min s.length 15) 0

/-- Well-formedness of a configured symbol name: at most 15 non-NUL bytes. -/
def wf_symbol (s : List Nat) : Prop :=
  s.length ≤ 15 ∧ ∀ c ∈ s, 0 < c ∧ c < 256

instance (s : List Nat) : Decidable (wf_symbol s) := by unfold wf_symbol; infer_instance

theorem fixSymbol_length (s : List Nat) : (fixSymbol s).length = 16 := by
  unfold fixSymbol
  rw [List.length_append, List.length_take, List.length_replicate]
  rcases Nat.le_total s.length 15 with h | h
  · rw [Nat.min_eq_right h, Nat.min_eq_left h]
    omega
  · rw [Nat.min_eq_left h, Nat.min_eq_right h]

theorem strCaseEq_pad : ∀ (s : List Nat) (k : Nat), 1 ≤ k → (∀ c ∈ s, 0 < c) →
    strCaseEq (s ++ List.replicate k 0) (s ++ [0]) = true := by
  intro s
  induction s with
  | nil =>
    intro k hk _
    obtain ⟨k2, rfl⟩ : ∃ k2, k = k2 + 1 := ⟨k - 1, by omega⟩
    show strCaseEq (0 :: List.replicate k2 0) [0] = true
    rfl
  | cons c cs ih =>
    intro k hk hpos
    have hc : 0 < c := hpos c (by simp)
    show strCaseEq (c :: (cs ++ List.replicate k 0)) (c :: (cs ++ [0])) = true
    have hstep : strCaseEq (c :: (cs ++ List.replicate k 0)) (c :: (cs ++ [0])) =
        if lowerByte c = lowerByte c then
          (if c = 0 then true else strCaseEq (cs ++ List.replicate k 0) (cs ++ [0]))
        else false := rfl
    rw [hstep, if_pos rfl, if_neg (show ¬ c = 0 by omega)]
    exact ih k hk fun x hx => hpos x (by simp [hx])

theorem strCaseEq_fixSymbol {s : List Nat} (hw : wf_symbol s) :
    strCaseEq (fixSymbol s) (s ++ [0]) = true := by
  obtain ⟨hlen, hpos⟩ := hw
  have hfix : fixSymbol s = s ++ List.replicate (16 - s.length) 0 := by
    unfold fixSymbol
    rw [List.take_of_length_le hlen, Nat.min_eq_left hlen]
  rw [hfix]
  exact strCaseEq_pad s _ (by omega) fun c hc => (hpos c hc).1

/-- Circular buffer of recent records plus parallel frame headers, as in the
recent_data sub-structures of symbol_data_t. -/
structure ring_buffer (α : Type) where
  records : Nat → α
  headers : Nat → message_header_t
  count : Nat
  next_index : Nat

/-- Zeroed ring buffer, as produced by memset in init_symbol_data. -/
def ring_init (h0 : message_header_t) (r0 : α) : ring_buffer α :=
  ⟨fun _ => r0, fun _ => h0, 0, 0⟩

/-- Append into the circular buffer: store record and header at next_index,
advance next_index mod capacity, saturate count (binance_collector.c lines
278-299 and 377-398). -/
def ring_append (rb : ring_buffer α) (h : message_header_t) (r : α) : ring_buffer α :=
  { records := fun k => if k = rb.next_index then r else rb.records k
    headers := fun k => if k = rb.next_index then h else rb.headers k
    count := if rb.count < MAX_RECORDS_PER_SYMBOL then rb.count + 1 else rb.count
    next_index := (rb.next_index + 1) % MAX_RECORDS_PER_SYMBOL }

/-- Chronological start index of the publisher's walk (binance_collector.c
lines 533-534 and 563-564). -/
def chrono_start (rb : ring_buffer α) : Nat :=
  if rb.count ≥ MAX_RECORDS_PER_SYMBOL then rb.next_index else 0

/-- The (header, record) pairs of the buffer in chronological order, oldest
first, exactly as the publisher's loop visits them. -/
def snapshotPairs (rb : ring_buffer α) : List (message_header_t × α) :=
  (List.range rb.count).map fun j =>
    (rb.headers ((chrono_start rb + j) % MAX_RECORDS_PER_SYMBOL),
     rb.records ((chrono_start rb + j) % MAX_RECORDS_PER_SYMBOL))

/-- Append a whole list of (header, record) pairs in order. -/
def appendAll (rb : ring_buffer α) (ps : List (message_header_t × α)) : ring_buffer α :=
  ps.foldl (fun b p => ring_append b p.1 p.2) rb

theorem appendAll_concat (rb : ring_buffer α) (ps : List (message_header_t × α))
    (p : message_header_t × α) :
    appendAll rb (ps ++ [p]) = ring_append (appendAll rb ps) p.1 p.2 := by
  simp [appendAll, List.foldl_append]

theorem getD_append_left {α : Type} (xs ys : List α) (d : α) {k : Nat}
    (h : k < xs.length) :
    (xs ++ ys).getD k d = xs.getD k d := by
  induction xs generalizing k with
  | nil => simp at h
  | cons a as ih =>
    cases k with
    | zero => rfl
    | succ k2 =>
      simp only [List.cons_append, List.getD_cons_succ]
      exact ih (by simpa using h)

theorem appendAll_cells (h0 : message_header_t) (r0 : α)
    (ps : List (message_header_t × α)) :
    (appendAll (ring_init h0 r0) ps).count = min ps.length 100 ∧
    (appendAll (ring_init h0 r0) ps).next_index = ps.length % 100 ∧
    ∀ j, j < min ps.length 100 →
      ((appendAll (ring_init h0 r0) ps).headers
          ((chrono_start (appendAll (ring_init h0 r0) ps) + j) % 100),
       (appendAll (ring_init h0 r0) ps).records
          ((chrono_start (appendAll (ring_init h0 r0) ps) + j) % 100)) =
        ps.getD (ps.length - min ps.length 100 + j) (h0, r0) := by
  induction ps using List.reverseRecOn with
  | nil =>
    refine ⟨rfl, rfl, ?_⟩
    intro j hj
    simp at hj
  | append_singleton ps p ih =>
    obtain ⟨ihc, ihn, ihcell⟩ := ih
    rw [appendAll_concat]
    set rb := appendAll (ring_init h0 r0) ps with hrb
    set len := ps.length with hlen
    have hlen2 : (ps ++ [p]).length = len + 1 := by simp [hlen]
    have hN : MAX_RECORDS_PER_SYMBOL = 100 := rfl
    by_cases hsmall : len < 100
    · -- buffer not yet full before this append
      have hcount : rb.count = len := by rw [ihc]; omega
      have hni : rb.next_index = len := by rw [ihn]; omega
      have hcount2 : (ring_append rb p.1 p.2).count = len + 1 := by
        simp [ring_append, hN, hcount, hsmall]
      have hni2 : (ring_append rb p.1 p.2).next_index = (len + 1) % 100 := by
        simp [ring_append, hN, hni]
      refine ⟨by rw [hcount2, hlen2]; omega, by rw [hni2, hlen2], ?_⟩
      intro j hj
      rw [hlen2] at hj ⊢
      have hj2 : j < len + 1 := by omega
      have hstart : chrono_start (ring_append rb p.1 p.2) = 0 := by
        unfold chrono_start
        rw [hcount2, hni2, hN]
        split <;> omega
      rw [hstart]
      have hidx : (0 + j) % 100 = j := by omega
      rw [hidx]
      have hmin : len + 1 - min (len + 1) 100 + j = j := by omega
      rw [hmin]
      by_cases hjlast : j = len
      · have e1 : (ring_append rb p.1 p.2).headers j = p.1 := by
          simp only [ring_append]
          rw [if_pos (by omega)]
        have e2 : (ring_append rb p.1 p.2).records j = p.2 := by
          simp only [ring_append]
          rw [if_pos (by omega)]
        rw [e1, e2]
        have : (ps ++ [p]).getD j (h0, r0) = p := getD_append_at ps p [] _ (by omega)
        rw [this]
      · have hjlt : j < len := by omega
        have e1 : (ring_append rb p.1 p.2).headers j = rb.headers j := by
          simp only [ring_append]
          rw [if_neg (by omega)]
        have e2 : (ring_append rb p.1 p.2).records j = rb.records j := by
          simp only [ring_append]
          rw [if_neg (by omega)]
        rw [e1, e2]
        have hstro : chrono_start rb = 0 := by
          unfold chrono_start
          rw [hcount, hN]
          rw [if_neg (by omega)]
        have hold := ihcell j (by omega)
        rw [hstro] at hold
        rw [hidx] at hold
        have hidxo : len - min len 100 + j = j := by omega
        rw [hidxo] at hold
        rw [getD_append_left ps [p] _ (by omega)]
        exact hold
    · -- buffer already full before this append
      have hbig : 100 ≤ len := by omega
      have hcount : rb.count = 100 := by rw [ihc]; omega
      have hni : rb.next_index = len % 100 := ihn
      have hcount2 : (ring_append rb p.1 p.2).count = 100 := by
        simp only [ring_append, hN, hcount]
        rw [if_neg (by omega)]
      have hni2 : (ring_append rb p.1 p.2).next_index = (len + 1) % 100 := by
        simp only [ring_append, hN, hni]
        omega
      refine ⟨by rw [hcount2, hlen2]; omega, by rw [hni2, hlen2], ?_⟩
      intro j hj
      rw [hlen2] at hj ⊢
      have hj2 : j < 100 := by omega
      have hstart : chrono_start (ring_append rb p.1 p.2) = (len + 1) % 100 := by
        unfold chrono_start
        rw [hcount2, hni2, hN]
        rw [if_pos (by omega)]
      rw [hstart]
      have hidx : ((len + 1) % 100 + j) % 100 = (len + 1 + j) % 100 := by omega
      rw [hidx]
      have hmin : len + 1 - min (len + 1) 100 + j = len + 1 - 100 + j := by omega
      rw [hmin]
      by_cases hjlast : j = 99
      · subst hjlast
        have hm : (len + 1 + 99) % 100 = rb.next_index := by rw [hni]; omega
        have e1 : (ring_append rb p.1 p.2).headers ((len + 1 + 99) % 100) = p.1 := by
          simp only [ring_append]
          rw [if_pos hm]
        have e2 : (ring_append rb p.1 p.2).records ((len + 1 + 99) % 100) = p.2 := by
          simp only [ring_append]
          rw [if_pos hm]
        rw [e1, e2]
        have hix : len + 1 - 100 + 99 = len := by omega
        rw [hix]
        have : (ps ++ [p]).getD len (h0, r0) = p := getD_append_at ps p [] _ hlen.symm
        rw [this]
      · have hjlt : j < 99 := by omega
        have hm : (len + 1 + j) % 100 ≠ rb.next_index := by rw [hni]; omega
        have e1 : (ring_append rb p.1 p.2).headers ((len + 1 + j) % 100) =
            rb.headers ((len + 1 + j) % 100) := by
          simp only [ring_append]
          rw [if_neg hm]
        have e2 : (ring_append rb p.1 p.2).records ((len + 1 + j) % 100) =
            rb.records ((len + 1 + j) % 100) := by
          simp only [ring_append]
          rw [if_neg hm]
        rw [e1, e2]
        have hstro : chrono_start rb = len % 100 := by
          unfold chrono_start
          rw [hcount, hN, hni]
          rw [if_pos (by omega)]
        have hold := ihcell (j + 1) (by omega)
        rw [hstro] at hold
        have hidxo : (len % 100 + (j + 1)) % 100 = (len + 1 + j) % 100 := by omega
        rw [hidxo] at hold
        have hidxo2 : len - min len 100 + (j + 1) = len + 1 - 100 + j := by omega
        rw [hidxo2] at hold
        rw [getD_append_left ps [p] _ (by omega)]
        exact hold

theorem snapshot_appendAll (h0 : message_header_t) (r0 : α)
    (ps : List (message_header_t × α)) :
    snapshotPairs (appendAll (ring_init h0 r0) ps) = ps.drop (ps.length - 100) := by
  obtain ⟨hc, hn, hcell⟩ := appendAll_cells h0 r0 ps
  apply List.ext_getElem
  · rw [List.length_drop]
    simp only [snapshotPairs, List.length_map, List.length_range, hc]
    omega
  · intro i h1 h2
    simp only [snapshotPairs, List.getElem_map, List.getElem_range, MAX_RECORDS_PER_SYMBOL]
    have hi : i < min ps.length 100 := by
      simpa only [snapshotPairs, List.length_map, List.length_range, hc] using h1
    have hcl := hcell i hi
    have hidx : ps.length - min ps.length 100 + i = ps.length - 100 + i := by omega
    rw [hidx] at hcl
    rw [List.getElem_drop]
    rw [← List.getD_eq_getElem ps (h0, r0) (by rw [List.length_drop] at h2; omega)]
    exact hcl

/-- Zeroed trade record (memset in init_symbol_data). -/
def zero_trade : trade_record_t := ⟨0, 0, ⟨0⟩, ⟨0⟩, 0, 0⟩

/-- Zeroed kline record (memset in init_symbol_data). -/
def zero_kline : kline_record_t := ⟨0, 0, ⟨0⟩, ⟨0⟩, ⟨0⟩, ⟨0⟩, ⟨0⟩, 0, 0⟩

/-- Zeroed frame header (memset in init_symbol_data). -/
def zero_header : message_header_t := ⟨0, 0, 0, List.replicate 16 0⟩

/-- The symbol's trade ring buffer right after init_symbol_data. -/
def init_trades_rb : ring_buffer trade_record_t := ring_init zero_header zero_trade

/-- The symbol's kline ring buffer right after init_symbol_data. -/
def init_klines_rb : ring_buffer kline_record_t := ring_init zero_header zero_kline

/-- The in-process per-symbol state of symbol_data_t that the handlers and
the publisher touch: the two ring buffers and the atomic counters. -/
structure symbol_state where
  trades : ring_buffer trade_record_t
  klines : ring_buffer kline_record_t
  trade_count : Nat
  kline_count : Nat
  message_count : Nat
  bytes_processed : Nat

/-- Per-symbol state right after init_symbol_data. -/
def init_symbol_state : symbol_state := ⟨init_trades_rb, init_klines_rb, 0, 0, 0, 0⟩

/-- Header built for a trade frame by handle_aggTrade (lines 284-289):
type DATA_TYPE_TRADE, length sizeof(trade_record_t), current time, and the
symbol name copied by strncpy into the 16-byte field. -/
def mk_trade_header (now : Int) (sym : List Nat) : message_header_t :=
  ⟨DATA_TYPE_TRADE, sizeof_trade_record, now, fixSymbol sym⟩

/-- Header built for a kline frame by handle_kline (lines 383-388). -/
def mk_kline_header (now : Int) (sym : List Nat) : message_header_t :=
  ⟨DATA_TYPE_KLINE, sizeof_kline_record, now, fixSymbol sym⟩

/-- State update performed by handle_aggTrade (lines 265-306) after the
record has been parsed, for a known symbol.  `writeOk` is the outcome of
the fwrite to the durable trade log: the counter updates and the ring
buffer insertion are in the else branch of the fwrite check, so they run
only when the write succeeded. -/
def handle_aggTrade_store (writeOk : Bool) (now : Int) (sym : List Nat)
    (st : symbol_state) (r : trade_record_t) : symbol_state :=
  if writeOk then
    { st with
        trade_count := st.trade_count + 1
        message_count := st.message_count + 1
        bytes_processed := st.bytes_processed + sizeof_trade_record
        trades := ring_append st.trades (mk_trade_header now sym) r }
  else st

/-- State update performed by handle_kline (lines 364-405) after the record
has been parsed, for a known symbol; same structure as the trade path. -/
def handle_kline_store (writeOk : Bool) (now : Int) (sym : List Nat)
    (st : symbol_state) (r : kline_record_t) : symbol_state :=
  if writeOk then
    { st with
        kline_count := st.kline_count + 1
        message_count := st.message_count + 1
        bytes_processed := st.bytes_processed + sizeof_kline_record
        klines := ring_append st.klines (mk_kline_header now sym) r }
  else st

/-- Local trade_data_size of update_shared_memory (lines 502-503). -/
def trade_data_size (trade_count : Nat) : Nat :=
  trade_count * (sizeof_message_header + sizeof_trade_record)

/-- Local kline_data_size of update_shared_memory (lines 505-506). -/
def kline_data_size (kline_count : Nat) : Nat :=
  kline_count * (sizeof_message_header + sizeof_kline_record)

/-- Local total_data_size after the capacity clamp (lines 508-515).  The
size_t subtraction buffer_size - sizeof(size_t) is modelled with truncated
Nat subtraction, which agrees with the C semantics whenever
8 ≤ buffer_size (always true in the program, where buffer_size is about
6.7 MB; theorems that depend on it carry the hypothesis). -/
def total_data_size (trade_count kline_count buffer_size : Nat) : Nat :=
  if trade_data_size trade_count + kline_data_size kline_count >
      buffer_size - sizeof_size_t then
    buffer_size - sizeof_size_t
  else trade_data_size trade_count + kline_data_size kline_count

/-- Local trades_to_write after the trade truncation check (lines 524-530). -/
def trades_to_write (trade_count kline_count buffer_size : Nat) : Nat :=
  if trade_data_size trade_count > total_data_size trade_count kline_count buffer_size then
    total_data_size trade_count kline_count buffer_size /
      (sizeof_message_header + sizeof_trade_record)
  else trade_count

/-- Local trade_bytes actually written (lines 525-529). -/
def trade_bytes (trade_count kline_count buffer_size : Nat) : Nat :=
  trades_to_write trade_count kline_count buffer_size *
    (sizeof_message_header + sizeof_trade_record)

/-- Local remaining_space for kline data (line 553). -/
def remaining_space (trade_count kline_count buffer_size : Nat) : Nat :=
  total_data_size trade_count kline_count buffer_size -
    trade_bytes trade_count kline_count buffer_size

/-- Local klines_to_write after the kline truncation check (lines 554-560). -/
def klines_to_write (trade_count kline_count buffer_size : Nat) : Nat :=
  if kline_data_size kline_count > remaining_space trade_count kline_count buffer_size then
    remaining_space trade_count kline_count buffer_size /
      (sizeof_message_header + sizeof_kline_record)
  else kline_count

/-- Local kline_bytes actually written (lines 555-559). -/
def kline_bytes (trade_count kline_count buffer_size : Nat) : Nat :=
  klines_to_write trade_count kline_count buffer_size *
    (sizeof_message_header + sizeof_kline_record)

/-- Payload of a frame: either a trade record or a kline record. -/
inductive frame_rec where
  | tr : trade_record_t → frame_rec
  | kl : kline_record_t → frame_rec
deriving DecidableEq

/-- A frame: header plus typed payload, the wire unit of a slot. -/
abbrev FrameF : Type := message_header_t × frame_rec

/-- Serialized payload of a frame. -/
def encodeRec : frame_rec → List Nat
  | .tr r => encode_trade r
  | .kl r => encode_kline r

/-- Serialized frame: header bytes then payload bytes, as the two memcpy
calls per record in update_shared_memory write them. -/
def encodeFrameF (f : FrameF) : List Nat := encode_header f.1 ++ encodeRec f.2

/-- Byte length of a frame. -/
def frameLenF (f : FrameF) : Nat :=
  sizeof_message_header + (match f.2 with | .tr _ => sizeof_trade_record | .kl _ => sizeof_kline_record)

/-- Concatenated serialization of a list of frames. -/
def bytesOfFrames : List FrameF → List Nat
  | [] => []
  | f :: fs => encodeFrameF f ++ bytesOfFrames fs

/-- The first `k` chronological trade frames of a buffer, exactly as the
publisher's trade loop (lines 536-550) visits and serializes them. -/
def publishedTradeFrames (rb : ring_buffer trade_record_t) (k : Nat) : List FrameF :=
  (List.range k).map fun j =>
    (rb.headers ((chrono_start rb + j) % MAX_RECORDS_PER_SYMBOL),
     frame_rec.tr (rb.records ((chrono_start rb + j) % MAX_RECORDS_PER_SYMBOL)))

/-- The first `k` chronological kline frames of a buffer, as the kline loop
(lines 566-580) serializes them. -/
def publishedKlineFrames (rb : ring_buffer kline_record_t) (k : Nat) : List FrameF :=
  (List.range k).map fun j =>
    (rb.headers ((chrono_start rb + j) % MAX_RECORDS_PER_SYMBOL),
     frame_rec.kl (rb.records ((chrono_start rb + j) % MAX_RECORDS_PER_SYMBOL)))

/-- The bytes update_shared_memory writes into one symbol's slot: the
size field, then the surviving trade frames in chronological order, then
the surviving kline frames in chronological order (lines 517-580). -/
def publishSlotBytes (rbT : ring_buffer trade_record_t) (rbK : ring_buffer kline_record_t)
    (buffer_size : Nat) : List Nat :=
  encodeLE 8 (total_data_size rbT.count rbK.count buffer_size) ++
    bytesOfFrames (publishedTradeFrames rbT (trades_to_write rbT.count rbK.count buffer_size)) ++
    bytesOfFrames (publishedKlineFrames rbK (klines_to_write rbT.count rbK.count buffer_size))

theorem bytesOfFrames_append (xs ys : List FrameF) :
    bytesOfFrames (xs ++ ys) = bytesOfFrames xs ++ bytesOfFrames ys := by
  induction xs with
  | nil => rfl
  | cons f fs ih => simp [bytesOfFrames, ih]

theorem encodeFrameF_length {f : FrameF} (hw : f.1.symbol.length = 16) :
    (encodeFrameF f).length = frameLenF f := by
  cases f with
  | mk h rec =>
    cases rec with
    | tr r =>
      simp [encodeFrameF, frameLenF, encodeRec, encode_header_length hw, encode_trade_length,
        sizeof_message_header, sizeof_trade_record]
    | kl r =>
      simp [encodeFrameF, frameLenF, encodeRec, encode_header_length hw, encode_kline_length,
        sizeof_message_header, sizeof_kline_record]

theorem trade_bytes_le_total (tc kc bs : Nat) :
    trade_bytes tc kc bs ≤ total_data_size tc kc bs := by
  unfold trade_bytes trades_to_write
  split_ifs with h
  · exact Nat.div_mul_le_self _ _
  · unfold trade_data_size at h
    omega

theorem kline_bytes_le_remaining (tc kc bs : Nat) :
    kline_bytes tc kc bs ≤ remaining_space tc kc bs := by
  unfold kline_bytes klines_to_write
  split_ifs with h
  · exact Nat.div_mul_le_self _ _
  · unfold kline_data_size at h
    omega

theorem written_le_total (tc kc bs : Nat) :
    trade_bytes tc kc bs + kline_bytes tc kc bs ≤ total_data_size tc kc bs := by
  have h1 := trade_bytes_le_total tc kc bs
  have h2 := kline_bytes_le_remaining tc kc bs
  unfold remaining_space at h2
  omega

theorem total_le_cap (tc kc bs : Nat) :
    total_data_size tc kc bs ≤ bs - sizeof_size_t := by
  unfold total_data_size
  split_ifs with h
  · exact le_refl _
  · omega

theorem total_no_overflow (tc kc bs : Nat)
    (h : trade_data_size tc + kline_data_size kc ≤ bs - sizeof_size_t) :
    total_data_size tc kc bs = trade_data_size tc + kline_data_size kc := by
  unfold total_data_size
  rw [if_neg (by omega)]

theorem trades_to_write_le (tc kc bs : Nat) : trades_to_write tc kc bs ≤ tc := by
  unfold trades_to_write
  split_ifs with h
  · unfold trade_data_size at h
    have h73 : sizeof_message_header + sizeof_trade_record = 73 := rfl
    rw [h73] at h ⊢
    omega
  · exact le_refl tc

theorem klines_to_write_le (tc kc bs : Nat) : klines_to_write tc kc bs ≤ kc := by
  unfold klines_to_write
  split_ifs with h
  · unfold kline_data_size at h
    have h97 : sizeof_message_header + sizeof_kline_record = 97 := rfl
    rw [h97] at h ⊢
    omega
  · exact le_refl kc

theorem trades_to_write_no_overflow (tc kc bs : Nat)
    (h : trade_data_size tc + kline_data_size kc ≤ bs - sizeof_size_t) :
    trades_to_write tc kc bs = tc := by
  unfold trades_to_write
  rw [total_no_overflow tc kc bs h]
  rw [if_neg (by unfold trade_data_size kline_data_size; omega)]

theorem klines_to_write_no_overflow (tc kc bs : Nat)
    (h : trade_data_size tc + kline_data_size kc ≤ bs - sizeof_size_t) :
    klines_to_write tc kc bs = kc := by
  have hrem : remaining_space tc kc bs = kline_data_size kc := by
    unfold remaining_space trade_bytes
    rw [total_no_overflow tc kc bs h, trades_to_write_no_overflow tc kc bs h]
    unfold trade_data_size
    omega
  unfold klines_to_write
  rw [hrem, if_neg (by omega)]

theorem trunc_trades_zero_klines (tc kc bs : Nat)
    (h : trades_to_write tc kc bs < tc) : klines_to_write tc kc bs = 0 := by
  have h73 : sizeof_message_header + sizeof_trade_record = 73 := rfl
  have h97 : sizeof_message_header + sizeof_kline_record = 97 := rfl
  have h1 : trade_data_size tc > total_data_size tc kc bs := by
    by_contra hcon
    unfold trades_to_write at h
    rw [if_neg hcon] at h
    omega
  have httw : trades_to_write tc kc bs =
      total_data_size tc kc bs / (sizeof_message_header + sizeof_trade_record) := by
    unfold trades_to_write
    rw [if_pos h1]
  have hrem : remaining_space tc kc bs =
      total_data_size tc kc bs - total_data_size tc kc bs / 73 * 73 := by
    unfold remaining_space trade_bytes
    rw [httw, h73]
  have hremlt : remaining_space tc kc bs < 73 := by
    rw [hrem]
    omega
  unfold klines_to_write
  split_ifs with h2
  · rw [h97]
    omega
  · unfold kline_data_size at h2
    rw [h97] at h2
    omega

theorem publishedTradeFrames_succ (rb : ring_buffer trade_record_t) (k : Nat) :
    publishedTradeFrames rb (k + 1) = publishedTradeFrames rb k ++
      [(rb.headers ((chrono_start rb + k) % MAX_RECORDS_PER_SYMBOL),
        frame_rec.tr (rb.records ((chrono_start rb + k) % MAX_RECORDS_PER_SYMBOL)))] := by
  simp [publishedTradeFrames, List.range_succ]

theorem publishedKlineFrames_succ (rb : ring_buffer kline_record_t) (k : Nat) :
    publishedKlineFrames rb (k + 1) = publishedKlineFrames rb k ++
      [(rb.headers ((chrono_start rb + k) % MAX_RECORDS_PER_SYMBOL),
        frame_rec.kl (rb.records ((chrono_start rb + k) % MAX_RECORDS_PER_SYMBOL)))] := by
  simp [publishedKlineFrames, List.range_succ]

theorem snapshot_cell_mem (rb : ring_buffer α) {k : Nat} (hk : k < rb.count) :
    (rb.headers ((chrono_start rb + k) % MAX_RECORDS_PER_SYMBOL),
     rb.records ((chrono_start rb + k) % MAX_RECORDS_PER_SYMBOL)) ∈ snapshotPairs rb := by
  simp only [snapshotPairs, List.mem_map, List.mem_range]
  exact ⟨k, hk, rfl⟩

theorem bytesOfFrames_tr_length (rb : ring_buffer trade_record_t)
    (hwf : ∀ pr ∈ snapshotPairs rb, pr.1.symbol.length = 16) :
    ∀ k, k ≤ rb.count →
    (bytesOfFrames (publishedTradeFrames rb k)).length =
      k * (sizeof_message_header + sizeof_trade_record) := by
  intro k
  induction k with
  | zero =>
    intro _
    simp [publishedTradeFrames, bytesOfFrames]
  | succ k ih =>
    intro hk
    rw [publishedTradeFrames_succ, bytesOfFrames_append, List.length_append,
      ih (by omega)]
    have h16 := hwf _ (snapshot_cell_mem rb (k := k) (by omega))
    have hfl := encodeFrameF_length
      (f := (rb.headers ((chrono_start rb + k) % MAX_RECORDS_PER_SYMBOL),
        frame_rec.tr (rb.records ((chrono_start rb + k) % MAX_RECORDS_PER_SYMBOL)))) h16
    simp only [bytesOfFrames, List.append_nil, List.length_append, List.length_nil] at *
    rw [hfl]
    simp only [frameLenF]
    ring

theorem bytesOfFrames_kl_length (rb : ring_buffer kline_record_t)
    (hwf : ∀ pr ∈ snapshotPairs rb, pr.1.symbol.length = 16) :
    ∀ k, k ≤ rb.count →
    (bytesOfFrames (publishedKlineFrames rb k)).length =
      k * (sizeof_message_header + sizeof_kline_record) := by
  intro k
  induction k with
  | zero =>
    intro _
    simp [publishedKlineFrames, bytesOfFrames]
  | succ k ih =>
    intro hk
    rw [publishedKlineFrames_succ, bytesOfFrames_append, List.length_append,
      ih (by omega)]
    have h16 := hwf _ (snapshot_cell_mem rb (k := k) (by omega))
    have hfl := encodeFrameF_length
      (f := (rb.headers ((chrono_start rb + k) % MAX_RECORDS_PER_SYMBOL),
        frame_rec.kl (rb.records ((chrono_start rb + k) % MAX_RECORDS_PER_SYMBOL)))) h16
    simp only [bytesOfFrames, List.append_nil, List.length_append, List.length_nil] at *
    rw [hfl]
    simp only [frameLenF]
    ring

/-- Alignment of an offset up to the next 8-byte boundary, the reader's
recovery step (offset + 7) & ~7. -/
def align8 (x : Nat) : Nat := ((x + 7) / 8) * 8

theorem align8_ge (x : Nat) : x ≤ align8 x := by
  unfold align8
  omega

/-- One observable action of the reader's frame walk in
display_symbol_data: a successfully decoded frame, or one of its warning
exits.  `off` is always the byte offset of the frame header involved. -/
inductive Step where
  | frameTrade : Nat → message_header_t → trade_record_t → Step
  | frameKline : Nat → message_header_t → kline_record_t → Step
  | mismatch : Nat → message_header_t → Step
  | unknownType : Nat → message_header_t → Step
  | invalidLength : Nat → message_header_t → Step
  | incompleteHeader : Nat → Step
deriving DecidableEq

/-- The reader's frame-walk loop, display_symbol_data lines 318-386,
over the slot data bytes (the slot content after its size field).  The
structural fuel argument bounds the iteration count; every loop iteration
advances the offset by at least 32 bytes, so `data_size + 1` fuel is
always sufficient and the fuel never influences the result in use. -/
def walkAux (bytes req : List Nat) (data_size max_records : Nat) :
    Nat → Nat → Nat → List Step
  | 0, _, _ => []
  | fuel + 1, offset, record_count =>
    if offset < data_size ∧ record_count < max_records then
      if offset + sizeof_message_header > data_size then [.incompleteHeader offset]
      else if strCaseEq (decode_header (slice bytes offset sizeof_message_header)).symbol
          (req ++ [0]) = false then
        .mismatch offset (decode_header (slice bytes offset sizeof_message_header)) ::
          walkAux bytes req data_size max_records fuel
            (align8 (offset + sizeof_message_header)) record_count
      else if (decode_header (slice bytes offset sizeof_message_header)).type =
          DATA_TYPE_TRADE then
        if offset + sizeof_message_header +
              (decode_header (slice bytes offset sizeof_message_header)).length > data_size ∨
            (decode_header (slice bytes offset sizeof_message_header)).length ≠
              sizeof_trade_record then
          [.invalidLength offset (decode_header (slice bytes offset sizeof_message_header))]
        else
          .frameTrade offset (decode_header (slice bytes offset sizeof_message_header))
              (decode_trade (slice bytes (offset + sizeof_message_header) sizeof_trade_record)) ::
            walkAux bytes req data_size max_records fuel
              (offset + sizeof_message_header +
                (decode_header (slice bytes offset sizeof_message_header)).length)
              (record_count + 1)
      else if (decode_header (slice bytes offset sizeof_message_header)).type =
          DATA_TYPE_KLINE then
        if offset + sizeof_message_header +
              (decode_header (slice bytes offset sizeof_message_header)).length > data_size ∨
            (decode_header (slice bytes offset sizeof_message_header)).length ≠
              sizeof_kline_record then
          [.invalidLength offset (decode_header (slice bytes offset sizeof_message_header))]
        else
          .frameKline offset (decode_header (slice bytes offset sizeof_message_header))
              (decode_kline (slice bytes (offset + sizeof_message_header) sizeof_kline_record)) ::
            walkAux bytes req data_size max_records fuel
              (offset + sizeof_message_header +
                (decode_header (slice bytes offset sizeof_message_header)).length)
              (record_count + 1)
      else
        .unknownType offset (decode_header (slice bytes offset sizeof_message_header)) ::
          walkAux bytes req data_size max_records fuel
            (align8 (offset + sizeof_message_header)) record_count
    else []

/-- The full frame walk of a slot's data area, from offset 0. -/
def readerWalk (bytes req : List Nat) (data_size max_records : Nat) : List Step :=
  walkAux bytes req data_size max_records (data_size + 1) 0 0

/-- Outcome of display_symbol_data for one slot once the symbol has been
located: the no-data report, the corrupt-size report, or the frame walk. -/
inductive ReaderResult where
  | noData : ReaderResult
  | corrupt : ReaderResult
  | walked : List Step → ReaderResult
deriving DecidableEq

/-- The slot-content part of display_symbol_data (lines 296-396): read the
size field, report no data on zero, report corruption when the declared
size exceeds the slot's usable capacity, otherwise walk the frames. -/
def displaySymbolData (slotBytes req : List Nat) (buffer_size max_records : Nat) :
    ReaderResult :=
  let data_size := decodeLE (slotBytes.take sizeof_size_t)
  if data_size = 0 then .noData
  else if data_size > buffer_size - sizeof_size_t then .corrupt
  else .walked (readerWalk (slotBytes.drop sizeof_size_t) req data_size max_records)

/-- Byte ranges (offset, length) the walk reads from the slot data for one
step: the 32 header bytes, plus the payload bytes for a decoded frame. -/
def stepAccesses : Step → List (Nat × Nat)
  | .frameTrade off _ _ => [(off, sizeof_message_header), (off + sizeof_message_header, sizeof_trade_record)]
  | .frameKline off _ _ => [(off, sizeof_message_header), (off + sizeof_message_header, sizeof_kline_record)]
  | .mismatch off _ => [(off, sizeof_message_header)]
  | .unknownType off _ => [(off, sizeof_message_header)]
  | .invalidLength off _ => [(off, sizeof_message_header)]
  | .incompleteHeader _ => []

/-- Number of symbol-mismatch resynchronization events in a walk. -/
def countMismatches (steps : List Step) : Nat :=
  (steps.filter fun s => match s with | .mismatch _ _ => true | _ => false).length

/-- The step the walk yields for a well-formed frame whose header starts at
offset `off`. -/
def stepOf (off : Nat) (f : FrameF) : Step :=
  match f.2 with
  | .tr r => .frameTrade off f.1 r
  | .kl r => .frameKline off f.1 r

/-- The steps the walk yields for consecutive well-formed frames starting
at offset `off`. -/
def stepsFrom : Nat → List FrameF → List Step
  | _, [] => []
  | off, f :: fs => stepOf off f :: stepsFrom (off + frameLenF f) fs

/-- Consistency of a frame header with its typed payload, as the publisher
builds it. -/
def wfRec (h : message_header_t) : frame_rec → Prop
  | .tr r => h.type = DATA_TYPE_TRADE ∧ h.length = sizeof_trade_record ∧ wf_trade r
  | .kl r => h.type = DATA_TYPE_KLINE ∧ h.length = sizeof_kline_record ∧ wf_kline r

instance (h : message_header_t) : (rec : frame_rec) → Decidable (wfRec h rec)
  | .tr _ => by unfold wfRec; infer_instance
  | .kl _ => by unfold wfRec; infer_instance

/-- A frame as the publisher writes it for the requested symbol: header
fields well formed and consistent with the payload kind, and the embedded
symbol name matching the request case-insensitively. -/
def wfFrameF (req : List Nat) (f : FrameF) : Prop :=
  wf_header f.1 ∧ strCaseEq f.1.symbol (req ++ [0]) = true ∧ wfRec f.1 f.2

instance (req : List Nat) (f : FrameF) : Decidable (wfFrameF req f) := by
  unfold wfFrameF
  infer_instance

theorem walkAux_matched (bytes req : List Nat) (ds mr : Nat) :
    ∀ fuel off rc s, s ∈ walkAux bytes req ds mr fuel off rc →
      (∀ o h r, s = Step.frameTrade o h r → strCaseEq h.symbol (req ++ [0]) = true) ∧
      (∀ o h r, s = Step.frameKline o h r → strCaseEq h.symbol (req ++ [0]) = true) := by
  intro fuel
  induction fuel with
  | zero =>
    intro off rc s hs
    simp [walkAux] at hs
  | succ fuel ih =>
    intro off rc s hs
    rw [walkAux] at hs
    split_ifs at hs with h1 h2 h3 h4 h5 h6 h7
    · simp only [List.mem_singleton] at hs
      subst hs
      exact ⟨(fun o h r heq => by cases heq), (fun o h r heq => by cases heq)⟩
    · rcases List.mem_cons.mp hs with hhead | htail
      · subst hhead
        exact ⟨(fun o h r heq => by cases heq), (fun o h r heq => by cases heq)⟩
      · exact ih _ _ _ htail
    · simp only [List.mem_singleton] at hs
      subst hs
      exact ⟨(fun o h r heq => by cases heq), (fun o h r heq => by cases heq)⟩
    · rcases List.mem_cons.mp hs with hhead | htail
      · subst hhead
        refine ⟨fun o h r heq => ?_, (fun o h r heq => by cases heq)⟩
        injection heq with e1 e2 e3
        subst e2
        cases hb : strCaseEq
            (decode_header (slice bytes off sizeof_message_header)).symbol (req ++ [0]) with
        | false => exact absurd hb h3
        | true => rfl
      · exact ih _ _ _ htail
    · simp only [List.mem_singleton] at hs
      subst hs
      exact ⟨(fun o h r heq => by cases heq), (fun o h r heq => by cases heq)⟩
    · rcases List.mem_cons.mp hs with hhead | htail
      · subst hhead
        refine ⟨(fun o h r heq => by cases heq), fun o h r heq => ?_⟩
        injection heq with e1 e2 e3
        subst e2
        cases hb : strCaseEq
            (decode_header (slice bytes off sizeof_message_header)).symbol (req ++ [0]) with
        | false => exact absurd hb h3
        | true => rfl
      · exact ih _ _ _ htail
    · rcases List.mem_cons.mp hs with hhead | htail
      · subst hhead
        exact ⟨(fun o h r heq => by cases heq), (fun o h r heq => by cases heq)⟩
      · exact ih _ _ _ htail
    · simp at hs

theorem walkAux_accesses (bytes req : List Nat) (ds mr : Nat) :
    ∀ fuel off rc s, s ∈ walkAux bytes req ds mr fuel off rc →
      ∀ ab ∈ stepAccesses s, ab.1 + ab.2 ≤ ds := by
  intro fuel
  induction fuel with
  | zero =>
    intro off rc s hs
    simp [walkAux] at hs
  | succ fuel ih =>
    intro off rc s hs
    rw [walkAux] at hs
    split_ifs at hs with h1 h2 h3 h4 h5 h6 h7
    · simp only [List.mem_singleton] at hs
      subst hs
      simp [stepAccesses]
    · rcases List.mem_cons.mp hs with hhead | htail
      · subst hhead
        intro ab hab
        simp only [stepAccesses, List.mem_singleton] at hab
        subst hab
        omega
      · exact ih _ _ _ htail
    · simp only [List.mem_singleton] at hs
      subst hs
      intro ab hab
      simp only [stepAccesses, List.mem_singleton] at hab
      subst hab
      omega
    · rcases List.mem_cons.mp hs with hhead | htail
      · subst hhead
        intro ab hab
        rcases not_or.mp h5 with ⟨hb1, hb2⟩
        have hlen : (decode_header (slice bytes off sizeof_message_header)).length =
            sizeof_trade_record := not_ne_iff.mp hb2
        simp only [stepAccesses, List.mem_cons, List.not_mem_nil, or_false] at hab
        rcases hab with hab | hab <;> subst hab <;> omega
      · exact ih _ _ _ htail
    · simp only [List.mem_singleton] at hs
      subst hs
      intro ab hab
      simp only [stepAccesses, List.mem_singleton] at hab
      subst hab
      omega
    · rcases List.mem_cons.mp hs with hhead | htail
      · subst hhead
        intro ab hab
        rcases not_or.mp h7 with ⟨hb1, hb2⟩
        have hlen : (decode_header (slice bytes off sizeof_message_header)).length =
            sizeof_kline_record := not_ne_iff.mp hb2
        simp only [stepAccesses, List.mem_cons, List.not_mem_nil, or_false] at hab
        rcases hab with hab | hab <;> subst hab <;> omega
      · exact ih _ _ _ htail
    · rcases List.mem_cons.mp hs with hhead | htail
      · subst hhead
        intro ab hab
        simp only [stepAccesses, List.mem_singleton] at hab
        subst hab
        omega
      · exact ih _ _ _ htail
    · simp at hs

theorem walkAux_length (bytes req : List Nat) (ds mr : Nat) :
    ∀ fuel off rc, (walkAux bytes req ds mr fuel off rc).length ≤ ds - off + 1 := by
  intro fuel
  induction fuel with
  | zero =>
    intro off rc
    simp [walkAux]
  | succ fuel ih =>
    intro off rc
    rw [walkAux]
    split_ifs with h1 h2 h3 h4 h5 h6 h7
    · simp
    · simp only [List.length_cons]
      have hrec := ih (align8 (off + sizeof_message_header)) rc
      have ha := align8_ge (off + sizeof_message_header)
      have h32 : sizeof_message_header = 32 := rfl
      omega
    · simp
    · simp only [List.length_cons]
      have hrec := ih (off + sizeof_message_header +
        (decode_header (slice bytes off sizeof_message_header)).length) (rc + 1)
      have h32 : sizeof_message_header = 32 := rfl
      omega
    · simp
    · simp only [List.length_cons]
      have hrec := ih (off + sizeof_message_header +
        (decode_header (slice bytes off sizeof_message_header)).length) (rc + 1)
      have h32 : sizeof_message_header = 32 := rfl
      omega
    · simp only [List.length_cons]
      have hrec := ih (align8 (off + sizeof_message_header)) rc
      have ha := align8_ge (off + sizeof_message_header)
      have h32 : sizeof_message_header = 32 := rfl
      omega
    · simp

theorem walkAux_mismatch_eq (bytes req : List Nat) (ds mr fuel off rc : Nat)
    (hlt : off < ds) (hrc : rc < mr) (hcap : off + sizeof_message_header ≤ ds)
    (hmm : strCaseEq (decode_header (slice bytes off sizeof_message_header)).symbol
      (req ++ [0]) = false) :
    walkAux bytes req ds mr (fuel + 1) off rc =
      Step.mismatch off (decode_header (slice bytes off sizeof_message_header)) ::
        walkAux bytes req ds mr fuel (align8 (off + sizeof_message_header)) rc := by
  rw [walkAux]
  rw [if_pos ⟨hlt, hrc⟩, if_neg (by omega), if_pos hmm]

theorem walkAux_frames (req : List Nat) (mr : Nat) :
    ∀ (fs : List FrameF) (fuel off rc : Nat) (pre post : List Nat) (ds : Nat),
      off = pre.length →
      ds = off + (bytesOfFrames fs).length →
      (∀ f ∈ fs, wfFrameF req f) →
      rc + fs.length ≤ mr →
      fs.length < fuel →
      walkAux (pre ++ bytesOfFrames fs ++ post) req ds mr fuel off rc = stepsFrom off fs := by
  intro fs
  induction fs with
  | nil =>
    intro fuel off rc pre post ds hoff hds hwf hmr hfuel
    obtain ⟨f2, rfl⟩ : ∃ f2, fuel = f2 + 1 := ⟨fuel - 1, by omega⟩
    have hds2 : ds = off := by simpa [bytesOfFrames] using hds
    rw [walkAux, if_neg (by omega)]
    rfl
  | cons f fs2 ih =>
    intro fuel off rc pre post ds hoff hds hwf hmr hfuel
    obtain ⟨f2, rfl⟩ : ∃ f2, fuel = f2 + 1 := ⟨fuel - 1, by omega⟩
    obtain ⟨fh, frec⟩ := f
    obtain ⟨whdr, hsym, hrec⟩ := hwf ⟨fh, frec⟩ (List.mem_cons_self _ _)
    have hlen16 : fh.symbol.length = 16 := whdr.2.2.2
    have e32 : sizeof_message_header = 32 := rfl
    have hmr2 : rc + (fs2.length + 1) ≤ mr := by simpa using hmr
    have hfuel2 : fs2.length < f2 := by simp at hfuel; omega
    cases frec with
    | tr r =>
      simp only [wfRec] at hrec
      obtain ⟨htype, hplen, hwtr⟩ := hrec
      have e41 : sizeof_trade_record = 41 := rfl
      have hEbytes : bytesOfFrames (⟨fh, frame_rec.tr r⟩ :: fs2) =
          encode_header fh ++ (encode_trade r ++ bytesOfFrames fs2) := by
        simp [bytesOfFrames, encodeFrameF, encodeRec]
      have hblen : (bytesOfFrames (⟨fh, frame_rec.tr r⟩ :: fs2)).length =
          73 + (bytesOfFrames fs2).length := by
        rw [hEbytes]
        simp [encode_header_length hlen16, encode_trade_length]
        omega
      have hds2 : ds = off + (73 + (bytesOfFrames fs2).length) := by rw [hds, hblen]
      have hb1 : pre ++ bytesOfFrames (⟨fh, frame_rec.tr r⟩ :: fs2) ++ post =
          pre ++ (encode_header fh ++ (encode_trade r ++ (bytesOfFrames fs2 ++ post))) := by
        rw [hEbytes]
        simp
      have s1 : slice (pre ++ bytesOfFrames (⟨fh, frame_rec.tr r⟩ :: fs2) ++ post) off
          sizeof_message_header = encode_header fh := by
        rw [hb1, slice_after _ hoff.symm, take_exact _ (encode_header_length hlen16)]
      have hb2 : pre ++ bytesOfFrames (⟨fh, frame_rec.tr r⟩ :: fs2) ++ post =
          (pre ++ encode_header fh) ++ (encode_trade r ++ (bytesOfFrames fs2 ++ post)) := by
        rw [hEbytes]
        simp
      have s2 : slice (pre ++ bytesOfFrames (⟨fh, frame_rec.tr r⟩ :: fs2) ++ post)
          (off + sizeof_message_header) sizeof_trade_record = encode_trade r := by
        rw [hb2, slice_after _ (by
          simp [List.length_append, encode_header_length hlen16]
          omega) _, take_exact _ (encode_trade_length r)]
      have d1 : decode_header (slice (pre ++ bytesOfFrames (⟨fh, frame_rec.tr r⟩ :: fs2) ++ post)
          off sizeof_message_header) = fh := by
        rw [s1]
        exact decode_encode_header whdr
      have d2 : decode_trade (slice (pre ++ bytesOfFrames (⟨fh, frame_rec.tr r⟩ :: fs2) ++ post)
          (off + sizeof_message_header) sizeof_trade_record) = r := by
        rw [s2]
        exact decode_encode_trade hwtr
      rw [walkAux, d1, d2]
      rw [if_pos ⟨by omega, by omega⟩, if_neg (by omega),
        if_neg (by rw [hsym]; simp), if_pos htype,
        if_neg (not_or.mpr ⟨by omega, by rw [hplen]; simp⟩)]
      rw [hplen]
      simp only [stepsFrom, stepOf, frameLenF]
      congr 1
      rw [← Nat.add_assoc]
      have hb3 : (pre ++ encodeFrameF ⟨fh, frame_rec.tr r⟩) ++ bytesOfFrames fs2 ++ post =
          pre ++ bytesOfFrames (⟨fh, frame_rec.tr r⟩ :: fs2) ++ post := by
        simp [bytesOfFrames, encodeFrameF, encodeRec]
      have happ := ih f2 (off + sizeof_message_header + sizeof_trade_record) (rc + 1)
        (pre ++ encodeFrameF ⟨fh, frame_rec.tr r⟩) post ds
        (by
          simp [List.length_append, encodeFrameF, encodeRec, encode_header_length hlen16,
            encode_trade_length]
          omega)
        (by omega)
        (fun g hg => hwf g (List.mem_cons_of_mem _ hg))
        (by omega)
        hfuel2
      rw [hb3] at happ
      exact happ
    | kl r =>
      simp only [wfRec] at hrec
      obtain ⟨htype, hplen, hwkl⟩ := hrec
      have e65 : sizeof_kline_record = 65 := rfl
      have hEbytes : bytesOfFrames (⟨fh, frame_rec.kl r⟩ :: fs2) =
          encode_header fh ++ (encode_kline r ++ bytesOfFrames fs2) := by
        simp [bytesOfFrames, encodeFrameF, encodeRec]
      have hblen : (bytesOfFrames (⟨fh, frame_rec.kl r⟩ :: fs2)).length =
          97 + (bytesOfFrames fs2).length := by
        rw [hEbytes]
        simp [encode_header_length hlen16, encode_kline_length]
        omega
      have hds2 : ds = off + (97 + (bytesOfFrames fs2).length) := by rw [hds, hblen]
      have hb1 : pre ++ bytesOfFrames (⟨fh, frame_rec.kl r⟩ :: fs2) ++ post =
          pre ++ (encode_header fh ++ (encode_kline r ++ (bytesOfFrames fs2 ++ post))) := by
        rw [hEbytes]
        simp
      have s1 : slice (pre ++ bytesOfFrames (⟨fh, frame_rec.kl r⟩ :: fs2) ++ post) off
          sizeof_message_header = encode_header fh := by
        rw [hb1, slice_after _ hoff.symm, take_exact _ (encode_header_length hlen16)]
      have hb2 : pre ++ bytesOfFrames (⟨fh, frame_rec.kl r⟩ :: fs2) ++ post =
          (pre ++ encode_header fh) ++ (encode_kline r ++ (bytesOfFrames fs2 ++ post)) := by
        rw [hEbytes]
        simp
      have s2 : slice (pre ++ bytesOfFrames (⟨fh, frame_rec.kl r⟩ :: fs2) ++ post)
          (off + sizeof_message_header) sizeof_kline_record = encode_kline r := by
        rw [hb2, slice_after _ (by
          simp [List.length_append, encode_header_length hlen16]
          omega) _, take_exact _ (encode_kline_length r)]
      have d1 : decode_header (slice (pre ++ bytesOfFrames (⟨fh, frame_rec.kl r⟩ :: fs2) ++ post)
          off sizeof_message_header) = fh := by
        rw [s1]
        exact decode_encode_header whdr
      have d2 : decode_kline (slice (pre ++ bytesOfFrames (⟨fh, frame_rec.kl r⟩ :: fs2) ++ post)
          (off + sizeof_message_header) sizeof_kline_record) = r := by
        rw [s2]
        exact decode_encode_kline hwkl
      rw [walkAux, d1, d2]
      rw [if_pos ⟨by omega, by omega⟩, if_neg (by omega),
        if_neg (by rw [hsym]; simp), if_neg (by rw [htype]; decide),
        if_pos htype,
        if_neg (not_or.mpr ⟨by omega, by rw [hplen]; simp⟩)]
      rw [hplen]
      simp only [stepsFrom, stepOf, frameLenF]
      congr 1
      rw [← Nat.add_assoc]
      have hb3 : (pre ++ encodeFrameF ⟨fh, frame_rec.kl r⟩) ++ bytesOfFrames fs2 ++ post =
          pre ++ bytesOfFrames (⟨fh, frame_rec.kl r⟩ :: fs2) ++ post := by
        simp [bytesOfFrames, encodeFrameF, encodeRec]
      have happ := ih f2 (off + sizeof_message_header + sizeof_kline_record) (rc + 1)
        (pre ++ encodeFrameF ⟨fh, frame_rec.kl r⟩) post ds
        (by
          simp [List.length_append, encodeFrameF, encodeRec, encode_header_length hlen16,
            encode_kline_length]
          omega)
        (by omega)
        (fun g hg => hwf g (List.mem_cons_of_mem _ hg))
        (by omega)
        hfuel2
      rw [hb3] at happ
      exact happ

theorem publishSlotBytes_length (rbT : ring_buffer trade_record_t)
    (rbK : ring_buffer kline_record_t) (bs : Nat)
    (hwfT : ∀ pr ∈ snapshotPairs rbT, pr.1.symbol.length = 16)
    (hwfK : ∀ pr ∈ snapshotPairs rbK, pr.1.symbol.length = 16) :
    (publishSlotBytes rbT rbK bs).length =
      sizeof_size_t + trade_bytes rbT.count rbK.count bs +
        kline_bytes rbT.count rbK.count bs := by
  unfold publishSlotBytes
  rw [List.length_append, List.length_append, encodeLE_length,
    bytesOfFrames_tr_length rbT hwfT _ (trades_to_write_le rbT.count rbK.count bs),
    bytesOfFrames_kl_length rbK hwfK _ (klines_to_write_le rbT.count rbK.count bs)]
  unfold trade_bytes kline_bytes sizeof_size_t
  ring

theorem publishSlotBytes_length_le (rbT : ring_buffer trade_record_t)
    (rbK : ring_buffer kline_record_t) (bs : Nat) (h8 : sizeof_size_t ≤ bs)
    (hwfT : ∀ pr ∈ snapshotPairs rbT, pr.1.symbol.length = 16)
    (hwfK : ∀ pr ∈ snapshotPairs rbK, pr.1.symbol.length = 16) :
    (publishSlotBytes rbT rbK bs).length ≤ bs := by
  rw [publishSlotBytes_length rbT rbK bs hwfT hwfK]
  have h1 := written_le_total rbT.count rbK.count bs
  have h2 := total_le_cap rbT.count rbK.count bs
  have e8 : sizeof_size_t = 8 := rfl
  omega

/-- One observable action of an update_shared_memory invocation, in program
order: the atomic store of last_update_time at the top of the function, the
per-symbol slot rewrite of the main loop, and the trailing write_counter
increment. -/
inductive pub_event where
  | set_last_update : Int → pub_event
  | process_slot : Nat → pub_event
  | incr_write_counter : pub_event
deriving DecidableEq

/-- The publisher-relevant mutable state of update_shared_memory: the two
shared-header atomics and the file-scope static last_update_time used by
the rate-limit check. -/
structure publisher_state where
  write_counter : Nat
  shm_last_update_time : Int
  static_last_update : Int
deriving DecidableEq

/-- Control flow of update_shared_memory (lines 475-587) at the level of
its externally visible events: store last_update_time := now first, then
return early when now - last_update_time < 1, otherwise process every
symbol's slot in index order and finally increment write_counter. -/
def update_shared_memory_trace (now : Int) (sym_count : Nat) (st : publisher_state) :
    publisher_state × List pub_event :=
  if now - st.static_last_update < 1 then
    ({ st with shm_last_update_time := now }, [pub_event.set_last_update now])
  else
    ({ write_counter := st.write_counter + 1
       shm_last_update_time := now
       static_last_update := now },
     pub_event.set_last_update now ::
       ((List.range sym_count).map pub_event.process_slot ++ [pub_event.incr_write_counter]))

/-- Recognizer for the last_update_time store event. -/
def isSetLastUpdate : pub_event → Bool
  | .set_last_update _ => true
  | _ => false

/-- Recognizer for a slot-processing event. -/
def isProcessSlot : pub_event → Bool
  | .process_slot _ => true
  | _ => false

/-- Formalization of the ordering property asserted by the specification:
in the event trace, last_update_time is stored only after every
slot-processing event. -/
def lastUpdateOnlyAfterSlots (tr : List pub_event) : Prop :=
  ∀ (i j : Fin tr.length), isSetLastUpdate (tr.get i) = true →
    isProcessSlot (tr.get j) = true → (j : Nat) < (i : Nat)

instance (tr : List pub_event) : Decidable (lastUpdateOnlyAfterSlots tr) := by
  unfold lastUpdateOnlyAfterSlots
  infer_instance

/-- The shared memory region: the header fields of shared_memory_header_t
plus the byte-addressed data area. -/
structure shm_region where
  write_counter : Nat
  last_update_time : Int
  data_offset : Nat
  buffer_size : Nat
  symbol_count : Nat
  symbols : List (List Nat)
  datamem : Nat → Nat

/-- Overwrite `bs.length` bytes of a byte-addressed memory at offset `off`,
the model of a contiguous sequence of memcpy writes. -/
def writeBytesAt (mem : Nat → Nat) (off : Nat) (bs : List Nat) : Nat → Nat :=
  fun a => if off ≤ a ∧ a < off + bs.length then bs.getD (a - off) 0 else mem a

/-- The per-symbol body of update_shared_memory's loop (lines 489-583):
compute the slot offset, skip the symbol if even the size field would not
fit inside the region, otherwise write the slot bytes. -/
def update_symbol_slot (region : shm_region) (i : Nat) (st : symbol_state) : shm_region :=
  if region.data_offset + i * region.buffer_size + sizeof_size_t > SHM_SIZE then region
  else
    { region with
        datamem := writeBytesAt region.datamem
          (region.data_offset + i * region.buffer_size)
          (publishSlotBytes st.trades st.klines region.buffer_size) }

/-- The publisher's loop over all symbols, index order, starting at `i`. -/
def update_slots_from : shm_region → Nat → List symbol_state → shm_region
  | reg, _, [] => reg
  | reg, i, st :: rest => update_slots_from (update_symbol_slot reg i st) (i + 1) rest

/-- Whole-region effect of one update_shared_memory invocation: store
last_update_time, return early under the 1-second rate limit, otherwise
rewrite every symbol's slot and increment write_counter; the second
component is the new value of the static last_update_time variable. -/
def update_shared_memory_region (now : Int) (static_last : Int) (region : shm_region)
    (syms : List symbol_state) : shm_region × Int :=
  if now - static_last < 1 then ({ region with last_update_time := now }, static_last)
  else
    ({ update_slots_from { region with last_update_time := now } 0 syms with
        write_counter := region.write_counter + 1 }, now)

theorem update_symbol_slot_fields (region : shm_region) (i : Nat) (st : symbol_state) :
    (update_symbol_slot region i st).data_offset = region.data_offset ∧
    (update_symbol_slot region i st).buffer_size = region.buffer_size ∧
    (update_symbol_slot region i st).symbol_count = region.symbol_count ∧
    (update_symbol_slot region i st).symbols = region.symbols ∧
    (update_symbol_slot region i st).write_counter = region.write_counter ∧
    (update_symbol_slot region i st).last_update_time = region.last_update_time := by
  unfold update_symbol_slot
  split_ifs <;> exact ⟨rfl, rfl, rfl, rfl, rfl, rfl⟩

theorem update_symbol_slot_frame (region : shm_region) (i : Nat) (st : symbol_state)
    (h8 : sizeof_size_t ≤ region.buffer_size)
    (hwfT : ∀ pr ∈ snapshotPairs st.trades, pr.1.symbol.length = 16)
    (hwfK : ∀ pr ∈ snapshotPairs st.klines, pr.1.symbol.length = 16)
    (a : Nat)
    (ha : ¬ (region.data_offset + i * region.buffer_size ≤ a ∧
      a < region.data_offset + (i + 1) * region.buffer_size)) :
    (update_symbol_slot region i st).datamem a = region.datamem a := by
  unfold update_symbol_slot
  split_ifs with hskip
  · rfl
  · show writeBytesAt region.datamem _ _ a = region.datamem a
    unfold writeBytesAt
    rw [if_neg]
    intro ⟨hlo, hhi⟩
    have hlen := publishSlotBytes_length_le st.trades st.klines region.buffer_size h8 hwfT hwfK
    have hmul : (i + 1) * region.buffer_size = i * region.buffer_size + region.buffer_size := by
      ring
    omega

theorem update_slots_from_fields :
    ∀ (syms : List symbol_state) (region : shm_region) (i : Nat),
    (update_slots_from region i syms).data_offset = region.data_offset ∧
    (update_slots_from region i syms).buffer_size = region.buffer_size ∧
    (update_slots_from region i syms).symbol_count = region.symbol_count ∧
    (update_slots_from region i syms).symbols = region.symbols ∧
    (update_slots_from region i syms).write_counter = region.write_counter ∧
    (update_slots_from region i syms).last_update_time = region.last_update_time := by
  intro syms
  induction syms with
  | nil => exact fun region i => ⟨rfl, rfl, rfl, rfl, rfl, rfl⟩
  | cons st rest ih =>
    intro region i
    have h1 := update_symbol_slot_fields region i st
    have h2 := ih (update_symbol_slot region i st) (i + 1)
    unfold update_slots_from
    exact ⟨h2.1.trans h1.1, h2.2.1.trans h1.2.1, h2.2.2.1.trans h1.2.2.1,
      h2.2.2.2.1.trans h1.2.2.2.1, h2.2.2.2.2.1.trans h1.2.2.2.2.1,
      h2.2.2.2.2.2.trans h1.2.2.2.2.2⟩

theorem update_slots_from_frame :
    ∀ (syms : List symbol_state) (region : shm_region) (i : Nat)
      (h8 : sizeof_size_t ≤ region.buffer_size)
      (hwf : ∀ st ∈ syms, (∀ pr ∈ snapshotPairs st.trades, pr.1.symbol.length = 16) ∧
        (∀ pr ∈ snapshotPairs st.klines, pr.1.symbol.length = 16))
      (a : Nat)
      (ha : ∀ j, i ≤ j → j < i + syms.length →
        ¬ (region.data_offset + j * region.buffer_size ≤ a ∧
          a < region.data_offset + (j + 1) * region.buffer_size)),
    (update_slots_from region i syms).datamem a = region.datamem a := by
  intro syms
  induction syms with
  | nil => intro region i _ _ a _; rfl
  | cons st rest ih =>
    intro region i h8 hwf a ha
    unfold update_slots_from
    have hfields := update_symbol_slot_fields region i st
    have hstep := update_symbol_slot_frame region i st h8
      (hwf st (List.mem_cons_self _ _)).1 (hwf st (List.mem_cons_self _ _)).2 a
      (ha i (le_refl i) (by simp))
    have hrest := ih (update_symbol_slot region i st) (i + 1)
      (by rw [hfields.2.1]; exact h8)
      (fun s hs => hwf s (List.mem_cons_of_mem _ hs)) a
      (by
        intro j hj1 hj2
        rw [hfields.1, hfields.2.1]
        exact ha j (by omega) (by simp at hj2 ⊢; omega))
    rw [hrest, hstep]

/-- Byte values of the configured symbol name BTCUSDT. -/
def symBTC : List Nat := [66, 84, 67, 85, 83, 68, 84]

/-- Byte values of the unrelated symbol name ETHUSDT. -/
def symETH : List Nat := [69, 84, 72, 85, 83, 68, 84]

/-- IEEE-754 bit pattern of the double 10000.0. -/
def price_10000_00 : F64 := ⟨0x40C3880000000000⟩

/-- IEEE-754 bit pattern of the double 10001.5. -/
def price_10001_50 : F64 := ⟨0x40C388C000000000⟩

/-- IEEE-754 bit pattern of the double 9999.25. -/
def price_9999_25 : F64 := ⟨0x40C387A000000000⟩

/-- Sample trade with price 10000.0 (quantity bits are the double 1.0). -/
def trade_a : trade_record_t :=
  ⟨1700000000000, 1700000000001, price_10000_00, ⟨0x3FF0000000000000⟩, 101, 0⟩

/-- Sample trade with price 10001.5. -/
def trade_b : trade_record_t :=
  ⟨1700000000002, 1700000000003, price_10001_50, ⟨0x3FF0000000000000⟩, 102, 1⟩

/-- Sample trade with price 9999.25. -/
def trade_c : trade_record_t :=
  ⟨1700000000004, 1700000000005, price_9999_25, ⟨0x3FF0000000000000⟩, 103, 0⟩

/-- Sample kline record. -/
def kline_a : kline_record_t :=
  ⟨1700000000000, 1700000059999, ⟨1⟩, ⟨2⟩, ⟨3⟩, ⟨4⟩, ⟨5⟩, 42, 1⟩

/-- C1: for every sequence of appends into one symbol's trade ring buffer
of capacity N = MAX_RECORDS_PER_SYMBOL, the publisher's chronological walk
(start index next_index when the buffer is full, else 0, iterating count
entries forward with wraparound) yields exactly the last min(appends, N)
appended records in insertion order, oldest first, and count equals
min(appends, N); the same holds for the kline ring buffer. -/
theorem claim_c1_ring_snapshot :
    (∀ ps : List (message_header_t × trade_record_t),
      snapshotPairs (appendAll init_trades_rb ps) =
        ps.drop (ps.length - MAX_RECORDS_PER_SYMBOL) ∧
      (appendAll init_trades_rb ps).count = min ps.length MAX_RECORDS_PER_SYMBOL) ∧
    (∀ ps : List (message_header_t × kline_record_t),
      snapshotPairs (appendAll init_klines_rb ps) =
        ps.drop (ps.length - MAX_RECORDS_PER_SYMBOL) ∧
      (appendAll init_klines_rb ps).count = min ps.length MAX_RECORDS_PER_SYMBOL) := by
  constructor
  · intro ps
    exact ⟨snapshot_appendAll zero_header zero_trade ps,
      (appendAll_cells zero_header zero_trade ps).1⟩
  · intro ps
    exact ⟨snapshot_appendAll zero_header zero_kline ps,
      (appendAll_cells zero_header zero_kline ps).1⟩

/-- C5 counterexample: with a failing durable write (fwrite outcome false),
handle_aggTrade and handle_kline leave the ring buffers and counters
untouched, while the same ingest with a successful write appends; so a
persistence failure does prevent the ring-buffer insertion, contrary to
the claim. -/
theorem claim_c5_counterexample :
    (handle_aggTrade_store false 1700000000 symBTC init_symbol_state trade_a).trades.count = 0 ∧
    (handle_kline_store false 1700000000 symBTC init_symbol_state kline_a).klines.count = 0 ∧
    (handle_aggTrade_store true 1700000000 symBTC init_symbol_state trade_a).trades.count = 1 ∧
    (handle_aggTrade_store false 1700000000 symBTC init_symbol_state trade_a).trade_count = 0 := by
  exact ⟨rfl, rfl, rfl, rfl⟩

/-- C5 amended: for every ingested record of a known symbol, the record is
appended to the symbol's ring buffer and the counters are updated exactly
when the write to the per-symbol durable log file succeeds; on a
persistence failure the handler leaves the symbol state unchanged. -/
theorem claim_c5_amended :
    ∀ (writeOk : Bool) (now : Int) (sym : List Nat) (st : symbol_state)
      (r : trade_record_t) (k : kline_record_t),
      (writeOk = true →
        (handle_aggTrade_store writeOk now sym st r).trades =
          ring_append st.trades (mk_trade_header now sym) r ∧
        (handle_aggTrade_store writeOk now sym st r).trade_count = st.trade_count + 1 ∧
        (handle_kline_store writeOk now sym st k).klines =
          ring_append st.klines (mk_kline_header now sym) k ∧
        (handle_kline_store writeOk now sym st k).kline_count = st.kline_count + 1) ∧
      (writeOk = false →
        handle_aggTrade_store writeOk now sym st r = st ∧
        handle_kline_store writeOk now sym st k = st) := by
  intro writeOk now sym st r k
  cases writeOk
  · exact ⟨(fun h => by cases h), fun _ => ⟨rfl, rfl⟩⟩
  · exact ⟨fun _ => ⟨rfl, rfl, rfl, rfl⟩, (fun h => by cases h)⟩

/-- C5 amended witness at a concrete input. -/
theorem claim_c5_amended_witness :
    (handle_aggTrade_store true 0 symBTC init_symbol_state trade_a).trades =
      ring_append init_symbol_state.trades (mk_trade_header 0 symBTC) trade_a ∧
    handle_aggTrade_store false 0 symBTC init_symbol_state trade_a = init_symbol_state :=
  ⟨((claim_c5_amended true 0 symBTC init_symbol_state trade_a kline_a).1 rfl).1,
   ((claim_c5_amended false 0 symBTC init_symbol_state trade_a kline_a).2 rfl).1⟩

/-- C7 counterexample: an invocation that rewrites the region (the gap
check passes and write_counter is incremented) emits the last_update_time
store as its first event, before any slot is processed, so last_update_time
is not set only after all symbols' slots have been processed. -/
theorem claim_c7_counterexample :
    (update_shared_memory_trace 10 1 ⟨0, 0, 0⟩).1.write_counter = 1 ∧
    ¬ lastUpdateOnlyAfterSlots (update_shared_memory_trace 10 1 ⟨0, 0, 0⟩).2 := by
  constructor
  · rfl
  · decide

/-- C7 amended: last_update_time is stored at the start of every publisher
invocation, before any slot processing and even when the invocation is
rate-limited away; in every rewriting invocation the write_counter
increment is the final event, after all symbols' slots are processed in
index order; a rewrite happens only when at least 1 second has elapsed
since the previous rewrite, non-rewriting invocations keep the gap
reference unchanged, and any later invocation that increments the counter
again is at least 1 second after the previous rewrite. -/
theorem claim_c7_amended :
    ∀ (now : Int) (sc : Nat) (st : publisher_state),
      (update_shared_memory_trace now sc st).1.shm_last_update_time = now ∧
      (now - st.static_last_update < 1 →
        (update_shared_memory_trace now sc st).2 = [pub_event.set_last_update now] ∧
        (update_shared_memory_trace now sc st).1.write_counter = st.write_counter ∧
        (update_shared_memory_trace now sc st).1.static_last_update =
          st.static_last_update) ∧
      (1 ≤ now - st.static_last_update →
        (update_shared_memory_trace now sc st).2 =
          pub_event.set_last_update now ::
            ((List.range sc).map pub_event.process_slot ++ [pub_event.incr_write_counter]) ∧
        (update_shared_memory_trace now sc st).1.write_counter = st.write_counter + 1 ∧
        (update_shared_memory_trace now sc st).1.static_last_update = now) ∧
      (∀ (now2 : Int) (sc2 : Nat),
        1 ≤ now - st.static_last_update →
        (update_shared_memory_trace now2 sc2
            (update_shared_memory_trace now sc st).1).1.write_counter ≠
          (update_shared_memory_trace now sc st).1.write_counter →
        1 ≤ now2 - now) := by
  intro now sc st
  unfold update_shared_memory_trace
  by_cases h : now - st.static_last_update < 1
  · rw [if_pos h]
    exact ⟨rfl, fun _ => ⟨rfl, rfl, rfl⟩, (fun hg => absurd hg (by omega)),
      (fun now2 sc2 hg _ => absurd hg (by omega))⟩
  · rw [if_neg h]
    refine ⟨rfl, (fun hlt => absurd hlt (by omega)), fun _ => ⟨rfl, rfl, rfl⟩, ?_⟩
    intro now2 sc2 hg hne
    by_cases h2 : now2 - now < 1
    · exfalso
      apply hne
      rw [if_pos h2]
    · omega

/-- C7 amended witness at a concrete input. -/
theorem claim_c7_amended_witness :
    (update_shared_memory_trace 10 1 ⟨5, 0, 0⟩).2 =
      pub_event.set_last_update 10 ::
        ((List.range 1).map pub_event.process_slot ++ [pub_event.incr_write_counter]) ∧
    (update_shared_memory_trace 10 1 ⟨5, 0, 0⟩).1.write_counter = 6 :=
  ⟨((claim_c7_amended 10 1 ⟨5, 0, 0⟩).2.2.1 (by decide)).1,
   ((claim_c7_amended 10 1 ⟨5, 0, 0⟩).2.2.1 (by decide)).2.1⟩

/-- C8: a symbol with zero ingested records (both ring buffers empty)
publishes a slot whose content is just a size field of 0, and the reader,
on reading a size field of 0, reports no data and returns without decoding
any record and without reporting an error. -/
theorem claim_c8_empty_slot :
    (∀ bs : Nat, publishSlotBytes init_trades_rb init_klines_rb bs = encodeLE 8 0) ∧
    decodeLE (encodeLE 8 0) = 0 ∧
    (∀ (slotBytes req : List Nat) (bs mr : Nat),
      decodeLE (slotBytes.take sizeof_size_t) = 0 →
      displaySymbolData slotBytes req bs mr = ReaderResult.noData) := by
  refine ⟨?_, by decide, ?_⟩
  · intro bs
    have hc1 : init_trades_rb.count = 0 := rfl
    have hc2 : init_klines_rb.count = 0 := rfl
    have htotal : total_data_size 0 0 bs = 0 := by
      unfold total_data_size trade_data_size kline_data_size
      simp
    have httw : trades_to_write 0 0 bs = 0 := by
      unfold trades_to_write
      split_ifs <;> simp [htotal]
    have hktw : klines_to_write 0 0 bs = 0 := by
      unfold klines_to_write
      split_ifs <;> simp [remaining_space, htotal]
    unfold publishSlotBytes
    rw [hc1, hc2, htotal, httw, hktw]
    simp [publishedTradeFrames, publishedKlineFrames, bytesOfFrames]
  · intro slotBytes req bs mr h0
    simp [displaySymbolData, h0]

/-- C8 witness at a concrete input. -/
theorem claim_c8_empty_slot_witness :
    displaySymbolData (publishSlotBytes init_trades_rb init_klines_rb 6710860)
      symBTC 6710860 10 = ReaderResult.noData := by
  have h := claim_c8_empty_slot
  exact h.2.2 _ symBTC 6710860 10 (by rw [h.1 6710860]; decide)

/-- C3: whenever the serialized content of a symbol's ring buffers exceeds
the slot capacity, the publisher's frame output never exceeds
slot_size - sizeof(size_field) bytes, only complete frames are written
(the byte counts are exact multiples of the frame sizes and the slot is
the size field followed by whole trade frames then whole kline frames),
every trade frame precedes every kline frame, and no kline frame is
published unless all trade frames of the snapshot are published. -/
theorem claim_c3_overflow_truncation :
    ∀ (rbT : ring_buffer trade_record_t) (rbK : ring_buffer kline_record_t) (bs : Nat),
      sizeof_size_t ≤ bs →
      (∀ pr ∈ snapshotPairs rbT, pr.1.symbol.length = 16) →
      (∀ pr ∈ snapshotPairs rbK, pr.1.symbol.length = 16) →
      trade_data_size rbT.count + kline_data_size rbK.count > bs - sizeof_size_t →
      trade_bytes rbT.count rbK.count bs + kline_bytes rbT.count rbK.count bs ≤
        bs - sizeof_size_t ∧
      trade_bytes rbT.count rbK.count bs = trades_to_write rbT.count rbK.count bs *
        (sizeof_message_header + sizeof_trade_record) ∧
      kline_bytes rbT.count rbK.count bs = klines_to_write rbT.count rbK.count bs *
        (sizeof_message_header + sizeof_kline_record) ∧
      publishSlotBytes rbT rbK bs =
        encodeLE 8 (total_data_size rbT.count rbK.count bs) ++
          bytesOfFrames (publishedTradeFrames rbT (trades_to_write rbT.count rbK.count bs)) ++
          bytesOfFrames (publishedKlineFrames rbK (klines_to_write rbT.count rbK.count bs)) ∧
      (bytesOfFrames (publishedTradeFrames rbT (trades_to_write rbT.count rbK.count bs))).length =
        trade_bytes rbT.count rbK.count bs ∧
      (bytesOfFrames (publishedKlineFrames rbK (klines_to_write rbT.count rbK.count bs))).length =
        kline_bytes rbT.count rbK.count bs ∧
      (trades_to_write rbT.count rbK.count bs < rbT.count →
        klines_to_write rbT.count rbK.count bs = 0) := by
  intro rbT rbK bs h8 hwfT hwfK hover
  have h1 := written_le_total rbT.count rbK.count bs
  have h2 := total_le_cap rbT.count rbK.count bs
  refine ⟨by omega, rfl, rfl, rfl, ?_, ?_, trunc_trades_zero_klines rbT.count rbK.count bs⟩
  · rw [bytesOfFrames_tr_length rbT hwfT _ (trades_to_write_le rbT.count rbK.count bs)]
    rfl
  · rw [bytesOfFrames_kl_length rbK hwfK _ (klines_to_write_le rbT.count rbK.count bs)]
    rfl

/-- The trade ring buffer after ingesting trade_a then trade_b, used as a
concrete overflow scenario against a small slot. -/
def rb_two_trades : ring_buffer trade_record_t :=
  appendAll init_trades_rb
    [(mk_trade_header 1700000000 symBTC, trade_a), (mk_trade_header 1700000000 symBTC, trade_b)]

/-- C3 witness at a concrete overflowing input: two trade frames (146
bytes) against a slot of 108 bytes (capacity 100 after the size field). -/
theorem claim_c3_overflow_truncation_witness :
    trade_bytes rb_two_trades.count init_klines_rb.count 108 +
        kline_bytes rb_two_trades.count init_klines_rb.count 108 ≤ 108 - sizeof_size_t ∧
    (trades_to_write rb_two_trades.count init_klines_rb.count 108 < rb_two_trades.count →
      klines_to_write rb_two_trades.count init_klines_rb.count 108 = 0) :=
  ⟨(claim_c3_overflow_truncation rb_two_trades init_klines_rb 108 (by decide) (by decide)
      (by decide) (by decide)).1,
   (claim_c3_overflow_truncation rb_two_trades init_klines_rb 108 (by decide) (by decide)
      (by decide) (by decide)).2.2.2.2.2.2⟩

/-- C4 counterexample: in the truncated overflow case the size field does
not equal the number of frame bytes actually written: with two buffered
trades (146 bytes of frames) and a 108-byte slot, the publisher writes a
size field of 100 but only 73 bytes of complete frames after it. -/
theorem claim_c4_counterexample :
    decodeLE ((publishSlotBytes rb_two_trades init_klines_rb 108).take sizeof_size_t) = 100 ∧
    ((publishSlotBytes rb_two_trades init_klines_rb 108).drop sizeof_size_t).length = 73 := by
  constructor
  · decide
  · decide

/-- C4 amended: after every publisher update of a symbol's slot, the size
field written at the start of the slot equals the clamped total_data_size;
the frame bytes actually written after it never exceed that size field,
and they equal it exactly whenever the serialized content fits the slot
(no truncation); in the truncated overflow case the size field may exceed
the bytes written. -/
theorem claim_c4_amended :
    ∀ (rbT : ring_buffer trade_record_t) (rbK : ring_buffer kline_record_t) (bs : Nat),
      rbT.count ≤ MAX_RECORDS_PER_SYMBOL → rbK.count ≤ MAX_RECORDS_PER_SYMBOL →
      bs < 2 ^ 64 →
      (∀ pr ∈ snapshotPairs rbT, pr.1.symbol.length = 16) →
      (∀ pr ∈ snapshotPairs rbK, pr.1.symbol.length = 16) →
      decodeLE ((publishSlotBytes rbT rbK bs).take sizeof_size_t) =
        total_data_size rbT.count rbK.count bs ∧
      ((publishSlotBytes rbT rbK bs).drop sizeof_size_t).length =
        trade_bytes rbT.count rbK.count bs + kline_bytes rbT.count rbK.count bs ∧
      trade_bytes rbT.count rbK.count bs + kline_bytes rbT.count rbK.count bs ≤
        total_data_size rbT.count rbK.count bs ∧
      (trade_data_size rbT.count + kline_data_size rbK.count ≤ bs - sizeof_size_t →
        total_data_size rbT.count rbK.count bs =
          trade_bytes rbT.count rbK.count bs + kline_bytes rbT.count rbK.count bs) := by
  intro rbT rbK bs hcT hcK hbs hwfT hwfK
  have hNmax : MAX_RECORDS_PER_SYMBOL = 100 := rfl
  have e73 : sizeof_message_header + sizeof_trade_record = 73 := rfl
  have e97 : sizeof_message_header + sizeof_kline_record = 97 := rfl
  have htotlt : total_data_size rbT.count rbK.count bs < 2 ^ 64 := by
    unfold total_data_size trade_data_size kline_data_size
    rw [e73, e97]
    split_ifs with h
    · have e8 : sizeof_size_t = 8 := rfl
      omega
    · omega
  refine ⟨?_, ?_, written_le_total rbT.count rbK.count bs, ?_⟩
  · have htake : (publishSlotBytes rbT rbK bs).take sizeof_size_t =
        encodeLE 8 (total_data_size rbT.count rbK.count bs) := by
      unfold publishSlotBytes
      rw [List.append_assoc]
      exact take_exact _ (encodeLE_length 8 _)
    rw [htake]
    exact decode_encodeLE_of_lt (pow256_8 ▸ htotlt)
  · have hdrop : (publishSlotBytes rbT rbK bs).drop sizeof_size_t =
        bytesOfFrames (publishedTradeFrames rbT (trades_to_write rbT.count rbK.count bs)) ++
          bytesOfFrames (publishedKlineFrames rbK (klines_to_write rbT.count rbK.count bs)) := by
      unfold publishSlotBytes
      rw [List.append_assoc]
      have h8l : (encodeLE 8 (total_data_size rbT.count rbK.count bs)).length =
          sizeof_size_t := encodeLE_length 8 _
      rw [← h8l, List.drop_left]
    rw [hdrop, List.length_append,
      bytesOfFrames_tr_length rbT hwfT _ (trades_to_write_le rbT.count rbK.count bs),
      bytesOfFrames_kl_length rbK hwfK _ (klines_to_write_le rbT.count rbK.count bs)]
    unfold trade_bytes kline_bytes
    ring
  · intro hfit
    have httw := trades_to_write_no_overflow rbT.count rbK.count bs hfit
    have hktw := klines_to_write_no_overflow rbT.count rbK.count bs hfit
    rw [total_no_overflow rbT.count rbK.count bs hfit]
    unfold trade_bytes kline_bytes
    rw [httw, hktw]
    unfold trade_data_size kline_data_size
    ring

/-- C4 amended witness at the concrete overflow input. -/
theorem claim_c4_amended_witness :
    decodeLE ((publishSlotBytes rb_two_trades init_klines_rb 108).take sizeof_size_t) =
      total_data_size rb_two_trades.count init_klines_rb.count 108 :=
  (claim_c4_amended rb_two_trades init_klines_rb 108 (by decide) (by decide) (by decide)
    (by decide) (by decide)).1

/-- The per-symbol state after ingesting, in order, trades with prices
10000.0, 10001.5 and 9999.25 for BTCUSDT, all with successful durable
writes, as in the specification's concrete scenario. -/
def scenario_state : symbol_state :=
  handle_aggTrade_store true 1700000100 symBTC
    (handle_aggTrade_store true 1700000100 symBTC
      (handle_aggTrade_store true 1700000100 symBTC init_symbol_state trade_a)
      trade_b)
    trade_c

/-- The prices of the trade records a walk displays, in display order. -/
def yieldPrices (steps : List Step) : List F64 :=
  steps.filterMap fun s =>
    match s with
    | .frameTrade _ _ r => some r.price
    | _ => none

set_option maxHeartbeats 3200000 in
/-- C2: for every record written into a slot by the publisher (no
truncation, the serialized snapshot fits the slot), the reader's walk of
that slot with no intervening write and a max-records limit of at least
the snapshot size decodes, frame by frame and field for field, exactly the
published (header, record) pairs; in particular, ingesting 3 trades for
BTCUSDT with prices 10000.0, 10001.5, 9999.25 in that order, then
snapshotting and reading back, returns exactly those 3 prices in that
order with count 3. -/
theorem claim_c2_roundtrip :
    (∀ (rbT : ring_buffer trade_record_t) (rbK : ring_buffer kline_record_t)
        (bs mr : Nat) (req : List Nat),
      0 < rbT.count + rbK.count →
      rbT.count ≤ MAX_RECORDS_PER_SYMBOL →
      rbK.count ≤ MAX_RECORDS_PER_SYMBOL →
      (∀ pr ∈ snapshotPairs rbT, wfFrameF req (pr.1, frame_rec.tr pr.2)) →
      (∀ pr ∈ snapshotPairs rbK, wfFrameF req (pr.1, frame_rec.kl pr.2)) →
      trade_data_size rbT.count + kline_data_size rbK.count ≤ bs - sizeof_size_t →
      rbT.count + rbK.count ≤ mr →
      displaySymbolData (publishSlotBytes rbT rbK bs) req bs mr =
        ReaderResult.walked (stepsFrom 0
          (publishedTradeFrames rbT rbT.count ++ publishedKlineFrames rbK rbK.count))) ∧
    (scenario_state.trades.count = 3 ∧
      displaySymbolData (publishSlotBytes scenario_state.trades scenario_state.klines 6710860)
          symBTC 6710860 10 =
        ReaderResult.walked
          [Step.frameTrade 0 (mk_trade_header 1700000100 symBTC) trade_a,
           Step.frameTrade 73 (mk_trade_header 1700000100 symBTC) trade_b,
           Step.frameTrade 146 (mk_trade_header 1700000100 symBTC) trade_c] ∧
      yieldPrices
          [Step.frameTrade 0 (mk_trade_header 1700000100 symBTC) trade_a,
           Step.frameTrade 73 (mk_trade_header 1700000100 symBTC) trade_b,
           Step.frameTrade 146 (mk_trade_header 1700000100 symBTC) trade_c] =
        [price_10000_00, price_10001_50, price_9999_25]) := by
  constructor
  · intro rbT rbK bs mr req hpos hcT hcK hwfT hwfK hfit hmr
    have hNmax : MAX_RECORDS_PER_SYMBOL = 100 := rfl
    have e73 : sizeof_message_header + sizeof_trade_record = 73 := rfl
    have e97 : sizeof_message_header + sizeof_kline_record = 97 := rfl
    have e8 : sizeof_size_t = 8 := rfl
    have httw := trades_to_write_no_overflow rbT.count rbK.count bs hfit
    have hktw := klines_to_write_no_overflow rbT.count rbK.count bs hfit
    have htot := total_no_overflow rbT.count rbK.count bs hfit
    have hwfT16 : ∀ pr ∈ snapshotPairs rbT, pr.1.symbol.length = 16 :=
      fun pr hpr => ((hwfT pr hpr).1).2.2.2
    have hwfK16 : ∀ pr ∈ snapshotPairs rbK, pr.1.symbol.length = 16 :=
      fun pr hpr => ((hwfK pr hpr).1).2.2.2
    have hlt := bytesOfFrames_tr_length rbT hwfT16 rbT.count (le_refl _)
    have hlk := bytesOfFrames_kl_length rbK hwfK16 rbK.count (le_refl _)
    have htotv : total_data_size rbT.count rbK.count bs =
        rbT.count * 73 + rbK.count * 97 := by
      rw [htot]
      unfold trade_data_size kline_data_size
      rw [e73, e97]
    have hcap := total_le_cap rbT.count rbK.count bs
    have htotlt : total_data_size rbT.count rbK.count bs < 2 ^ 64 := by
      rw [htotv]
      rw [hNmax] at hcT hcK
      omega
    have htake : (publishSlotBytes rbT rbK bs).take sizeof_size_t =
        encodeLE 8 (total_data_size rbT.count rbK.count bs) := by
      unfold publishSlotBytes
      rw [List.append_assoc]
      exact take_exact _ (encodeLE_length 8 _)
    have hdec : decodeLE ((publishSlotBytes rbT rbK bs).take sizeof_size_t) =
        total_data_size rbT.count rbK.count bs := by
      rw [htake]
      exact decode_encodeLE_of_lt (pow256_8 ▸ htotlt)
    have hdrop : (publishSlotBytes rbT rbK bs).drop sizeof_size_t =
        bytesOfFrames (publishedTradeFrames rbT rbT.count ++
          publishedKlineFrames rbK rbK.count) := by
      unfold publishSlotBytes
      rw [httw, hktw, List.append_assoc]
      have h8l : (encodeLE 8 (total_data_size rbT.count rbK.count bs)).length =
          sizeof_size_t := encodeLE_length 8 _
      rw [← h8l, List.drop_left, ← bytesOfFrames_append]
    have hfslen : (bytesOfFrames (publishedTradeFrames rbT rbT.count ++
        publishedKlineFrames rbK rbK.count)).length =
        rbT.count * 73 + rbK.count * 97 := by
      rw [bytesOfFrames_append, List.length_append, hlt, hlk, e73, e97]
    have hwfall : ∀ f ∈ publishedTradeFrames rbT rbT.count ++
        publishedKlineFrames rbK rbK.count, wfFrameF req f := by
      intro f hf
      rcases List.mem_append.mp hf with hf | hf
      · simp only [publishedTradeFrames, List.mem_map, List.mem_range] at hf
        obtain ⟨j, hj, rfl⟩ := hf
        exact hwfT _ (snapshot_cell_mem rbT hj)
      · simp only [publishedKlineFrames, List.mem_map, List.mem_range] at hf
        obtain ⟨j, hj, rfl⟩ := hf
        exact hwfK _ (snapshot_cell_mem rbK hj)
    have hframeslen : (publishedTradeFrames rbT rbT.count ++
        publishedKlineFrames rbK rbK.count).length = rbT.count + rbK.count := by
      simp [publishedTradeFrames, publishedKlineFrames]
    simp only [displaySymbolData]
    rw [hdec]
    rw [if_neg (by rw [htotv]; omega), if_neg (by omega)]
    rw [hdrop]
    unfold readerWalk
    congr 1
    have happ := walkAux_frames req mr
      (publishedTradeFrames rbT rbT.count ++ publishedKlineFrames rbK rbK.count)
      (total_data_size rbT.count rbK.count bs + 1) 0 0 [] []
      (total_data_size rbT.count rbK.count bs)
      rfl
      (by rw [hfslen, htotv]; omega)
      hwfall
      (by rw [hframeslen]; omega)
      (by rw [hframeslen, htotv]; omega)
    simpa using happ
  · exact ⟨by decide, by decide, by decide⟩

set_option maxHeartbeats 3200000 in
/-- C2 witness: the general round-trip statement applied at the concrete
3-trade scenario. -/
theorem claim_c2_roundtrip_witness :
    displaySymbolData (publishSlotBytes scenario_state.trades scenario_state.klines 6710860)
        symBTC 6710860 10 =
      ReaderResult.walked (stepsFrom 0
        (publishedTradeFrames scenario_state.trades scenario_state.trades.count ++
          publishedKlineFrames scenario_state.klines scenario_state.klines.count)) :=
  claim_c2_roundtrip.1 scenario_state.trades scenario_state.klines 6710860 10 symBTC
    (by decide) (by decide) (by decide) (by decide) (by decide) (by decide) (by decide)

/-- C6: the reader never displays a frame under the requested symbol when
the frame header's embedded symbol name differs case-insensitively from
it: every displayed frame's header matches the request; the number of
mismatch resynchronizations in a walk is bounded (by data_size + 1); and
on a mismatch the walk emits a warning and retries at the next
8-byte-aligned offset past the header just read. -/
theorem claim_c6_reader_mismatch :
    (∀ (bytes req : List Nat) (ds mr : Nat) (s : Step),
      s ∈ readerWalk bytes req ds mr →
      (∀ o h r, s = Step.frameTrade o h r → strCaseEq h.symbol (req ++ [0]) = true) ∧
      (∀ o h r, s = Step.frameKline o h r → strCaseEq h.symbol (req ++ [0]) = true)) ∧
    (∀ (bytes req : List Nat) (ds mr : Nat),
      countMismatches (readerWalk bytes req ds mr) ≤ ds + 1) ∧
    (∀ (bytes req : List Nat) (ds mr fuel off rc : Nat),
      off < ds → rc < mr → off + sizeof_message_header ≤ ds →
      strCaseEq (decode_header (slice bytes off sizeof_message_header)).symbol
        (req ++ [0]) = false →
      walkAux bytes req ds mr (fuel + 1) off rc =
        Step.mismatch off (decode_header (slice bytes off sizeof_message_header)) ::
          walkAux bytes req ds mr fuel (align8 (off + sizeof_message_header)) rc ∧
      off + sizeof_message_header ≤ align8 (off + sizeof_message_header) ∧
      align8 (off + sizeof_message_header) % 8 = 0) := by
  refine ⟨?_, ?_, ?_⟩
  · intro bytes req ds mr s hs
    exact walkAux_matched bytes req ds mr _ _ _ s hs
  · intro bytes req ds mr
    unfold readerWalk
    have h1 : countMismatches (walkAux bytes req ds mr (ds + 1) 0 0) ≤
        (walkAux bytes req ds mr (ds + 1) 0 0).length := List.length_filter_le _ _
    have h2 := walkAux_length bytes req ds mr (ds + 1) 0 0
    omega
  · intro bytes req ds mr fuel off rc hlt hrc hcap hmm
    refine ⟨walkAux_mismatch_eq bytes req ds mr fuel off rc hlt hrc hcap hmm,
      align8_ge _, ?_⟩
    unfold align8
    exact Nat.mul_mod_left _ 8

/-- A slot whose first frame header carries the unrelated symbol ETHUSDT. -/
def mismatch_bytes : List Nat := encode_header (mk_trade_header 0 symETH) ++ List.replicate 10 0

/-- C6 witness: the mismatch branch taken on a concrete corrupted slot. -/
theorem claim_c6_reader_mismatch_witness :
    walkAux mismatch_bytes symBTC 42 5 (3 + 1) 0 0 =
      Step.mismatch 0 (decode_header (slice mismatch_bytes 0 sizeof_message_header)) ::
        walkAux mismatch_bytes symBTC 42 5 3 (align8 (0 + sizeof_message_header)) 0 :=
  (claim_c6_reader_mismatch.2.2 mismatch_bytes symBTC 42 5 3 0 0
    (by decide) (by decide) (by decide) (by decide)).1

/-- C9: for every slot content and declared data size that passed the
capacity check, the reader's frame walk reads only byte ranges that end at
or before the declared data size: every header read spans
offset + sizeof(message_header_t) <= data_size bytes and every payload
read spans offset + length <= data_size bytes with the length equal to the
exact record size for the kind, so no out-of-bounds access occurs. -/
theorem claim_c9_reader_bounds :
    ∀ (bytes req : List Nat) (bs ds mr : Nat),
      sizeof_size_t ≤ bs → ds ≤ bs - sizeof_size_t →
      ∀ s ∈ readerWalk bytes req ds mr, ∀ ab ∈ stepAccesses s, ab.1 + ab.2 ≤ ds := by
  intro bytes req bs ds mr h8 hds s hs
  exact walkAux_accesses bytes req ds mr _ _ _ s hs

/-- C9 witness: a concrete in-bounds access of a concrete walk. -/
theorem claim_c9_reader_bounds_witness :
    (0 : Nat) + sizeof_message_header ≤ 42 :=
  claim_c9_reader_bounds mismatch_bytes symBTC 50 42 5 (by decide) (by decide)
    (Step.mismatch 0 (decode_header (slice mismatch_bytes 0 sizeof_message_header)))
    (by decide) (0, sizeof_message_header) (by decide)

/-- C10: each publisher pass modifies, for every symbol index i, only
bytes inside symbol i's own slot interval
[data_offset + i*buffer_size, data_offset + (i+1)*buffer_size); every byte
outside all processed slots is unchanged by the pass, and all header
fields except write_counter and last_update_time are unchanged. -/
theorem claim_c10_slot_isolation :
    ∀ (now static_last : Int) (region : shm_region) (syms : List symbol_state),
      sizeof_size_t ≤ region.buffer_size →
      (∀ st ∈ syms, (∀ pr ∈ snapshotPairs st.trades, pr.1.symbol.length = 16) ∧
        (∀ pr ∈ snapshotPairs st.klines, pr.1.symbol.length = 16)) →
      (∀ (i : Nat) (st : symbol_state),
        (∀ pr ∈ snapshotPairs st.trades, pr.1.symbol.length = 16) →
        (∀ pr ∈ snapshotPairs st.klines, pr.1.symbol.length = 16) →
        ∀ a, ¬ (region.data_offset + i * region.buffer_size ≤ a ∧
            a < region.data_offset + (i + 1) * region.buffer_size) →
          (update_symbol_slot region i st).datamem a = region.datamem a) ∧
      (∀ a, (∀ j, j < syms.length →
          ¬ (region.data_offset + j * region.buffer_size ≤ a ∧
            a < region.data_offset + (j + 1) * region.buffer_size)) →
        (update_shared_memory_region now static_last region syms).1.datamem a =
          region.datamem a) ∧
      ((update_shared_memory_region now static_last region syms).1.data_offset =
          region.data_offset ∧
        (update_shared_memory_region now static_last region syms).1.buffer_size =
          region.buffer_size ∧
        (update_shared_memory_region now static_last region syms).1.symbol_count =
          region.symbol_count ∧
        (update_shared_memory_region now static_last region syms).1.symbols =
          region.symbols) := by
  intro now static_last region syms h8 hwf
  refine ⟨?_, ?_, ?_⟩
  · intro i st hwfT hwfK a ha
    exact update_symbol_slot_frame region i st h8 hwfT hwfK a ha
  · intro a ha
    unfold update_shared_memory_region
    split_ifs with hgap
    · rfl
    · show (update_slots_from { region with last_update_time := now } 0 syms).datamem a =
        region.datamem a
      exact update_slots_from_frame syms { region with last_update_time := now } 0 h8 hwf a
        (fun j hj1 hj2 => ha j (by simpa using hj2))
  · unfold update_shared_memory_region
    split_ifs with hgap
    · exact ⟨rfl, rfl, rfl, rfl⟩
    · have hf := update_slots_from_fields syms { region with last_update_time := now } 0
      exact ⟨hf.1, hf.2.1, hf.2.2.1, hf.2.2.2.1⟩

/-- A small concrete region with one 200-byte slot at offset 0. -/
def region0 : shm_region := ⟨0, 0, 0, 200, 1, [symBTC], fun _ => 7⟩

/-- C10 witness: a byte outside the single processed slot is unchanged by
a concrete rewriting pass. -/
theorem claim_c10_slot_isolation_witness :
    (update_shared_memory_region 10 0 region0 [init_symbol_state]).1.datamem 500 =
      region0.datamem 500 :=
  (claim_c10_slot_isolation 10 0 region0 [init_symbol_state] (by decide)
    (by decide)).2.1 500 (by decide)

end Binance
